import Mathlib

/-!
Shallow embedding of the core of the paperpile-tools repository
(`pptools/util/bijection.py`, `pptools/util/misc.py`,
`pptools/bibliography.py`, `paperpile_tools/bibliography.py`).

Python dicts are modelled as association lists (`List (α × α)`) with
first-match lookup; insertion of a fresh key appends at the end, matching
CPython's insertion-order semantics.  Both sides of a `Bijection` use the
same key type, matching Python's single universe of objects (and required
to even type the `conflicts` code, which mixes the two sides).
Exceptions are modelled with `Except`; operations that mutate state before
raising return the partial state explicitly.
-/

namespace Pptools

/-- KeyLoc: location of a key in a Bijection key pair (IntEnum with values
LEFT=0, RIGHT=1, FROM=2, TO=3). -/
inductive KeyLoc : Type where
  | LEFT
  | RIGHT
  | FROM
  | TO
deriving DecidableEq, Repr, Fintype

instance {ε β : Type} [DecidableEq ε] [DecidableEq β] : DecidableEq (Except ε β) :=
  fun a b =>
    match a, b with
    | .ok x, .ok y =>
      if h : x = y then isTrue (by rw [h]) else isFalse fun hc => h (Except.ok.inj hc)
    | .error x, .error y =>
      if h : x = y then isTrue (by rw [h]) else isFalse fun hc => h (Except.error.inj hc)
    | .ok _, .error _ => isFalse fun hc => Except.noConfusion hc
    | .error _, .ok _ => isFalse fun hc => Except.noConfusion hc

/-- Numeric value of the IntEnum member. -/
def KeyLoc.val : KeyLoc → Nat
  | .LEFT => 0
  | .RIGHT => 1
  | .FROM => 2
  | .TO => 3

/-- The `KeyLoc(n)` IntEnum conversion; `none` models the ValueError raised
on an out-of-range value. -/
def KeyLoc.ofNat? : Nat → Option KeyLoc
  | 0 => some .LEFT
  | 1 => some .RIGHT
  | 2 => some .FROM
  | 3 => some .TO
  | _ => none

/-- `KeyLoc.relative`: `bool(self & 2)`. -/
def KeyLoc.relative (self : KeyLoc) : Bool := self.val &&& 2 ≠ 0

/-- Total core of `toabs` used once `_checkabs(fromside)` has passed:
`KeyLoc((self & 1) ^ fromside)` when relative, else `self`.  The `getD`
default is never taken (the computed value is always in range). -/
def KeyLoc.toabsCore (self fromside : KeyLoc) : KeyLoc :=
  if self.relative then (KeyLoc.ofNat? ((self.val &&& 1) ^^^ fromside.val)).getD self
  else self

/-- Total core of `torel`: `KeyLoc((self ^ fromside) | 2)` when absolute,
else `self`. -/
def KeyLoc.torelCore (self fromside : KeyLoc) : KeyLoc :=
  if self.relative then self
  else (KeyLoc.ofNat? ((self.val ^^^ fromside.val) ||| 2)).getD self

/-- `KeyLoc.toabs`: `_checkabs(fromside)` raises ValueError (modelled as
`.error ()`) when `fromside` is relative; otherwise converts. -/
def KeyLoc.toabs (self fromside : KeyLoc) : Except Unit KeyLoc :=
  if fromside.relative then .error () else .ok (self.toabsCore fromside)

/-- `KeyLoc.torel`, with the same `_checkabs` contract. -/
def KeyLoc.torel (self fromside : KeyLoc) : Except Unit KeyLoc :=
  if fromside.relative then .error () else .ok (self.torelCore fromside)

/-- `KeyLoc.flip`: `KeyLoc(self ^ 1)` (the conversion always succeeds on
in-range input, so the `getD` default is never taken). -/
def KeyLoc.flip (self : KeyLoc) : KeyLoc :=
  (KeyLoc.ofNat? (self.val ^^^ 1)).getD self

/-- BijectionKeyConflict: the structured KeyError raised when
adding/assigning to a Bijection.  `keypair` is the offending pair, `side`
the side of the conflict, `current` the pre-existing key value. -/
structure BijectionKeyConflict (α : Type) where
  keypair : α × α
  side : KeyLoc
  current : α
deriving DecidableEq, Repr

/-- `BijectionKeyConflict.toabs` after its `_checkabs(fromside)` has
passed: reverse the pair when anchored at RIGHT and convert the side;
an already-absolute conflict is returned unchanged. -/
def BijectionKeyConflict.toabsCore (e : BijectionKeyConflict α) (fromside : KeyLoc) :
    BijectionKeyConflict α :=
  if e.side.relative then
    { keypair := if fromside = .LEFT then e.keypair else (e.keypair.2, e.keypair.1)
      side := e.side.toabsCore fromside
      current := e.current }
  else e

/-- `BijectionKeyConflict.toabs` with the `_checkabs` contract. -/
def BijectionKeyConflict.toabs (e : BijectionKeyConflict α) (fromside : KeyLoc) :
    Except Unit (BijectionKeyConflict α) :=
  if fromside.relative then .error () else .ok (e.toabsCore fromside)

/-- First-match lookup in an association-list dict (`d[k]`, `k in d`). -/
def dlookup [DecidableEq α] : List (α × α) → α → Option α
  | [], _ => none
  | (k, v) :: rest, key => if k = key then some v else dlookup rest key

/-- Keys of a dict, in insertion order. -/
def dkeys (d : List (α × α)) : List α := d.map Prod.fst

/-- `del d[k]`: remove the (first) entry with the given key. -/
def dremove [DecidableEq α] : List (α × α) → α → List (α × α)
  | [], _ => []
  | (k, v) :: rest, key => if k = key then rest else (k, v) :: dremove rest key

variable {α : Type} [DecidableEq α]

/-- `BijectionMap.__setitem__` on the pair of underlying dicts
(`this = self.dict`, `other = self.other.dict`): idempotent no-op on an
equal re-assignment, TO/FROM-side conflict on a clash, otherwise insert
into both dicts. -/
def setitem (this other : List (α × α)) (key value : α) :
    Except (BijectionKeyConflict α) (List (α × α) × List (α × α)) :=
  match dlookup this key with
  | some value2 =>
    if value2 = value then .ok (this, other)
    else .error ⟨(key, value), .TO, value2⟩
  | none =>
    match dlookup other value with
    | some key2 =>
      if key2 = key then .ok (this, other)
      else .error ⟨(key, value), .FROM, key2⟩
    | none => .ok (this ++ [(key, value)], other ++ [(value, key)])

/-- `BijectionMap.__delitem__`: pop the key from this side and delete its
value from the other side; `.error ()` models the KeyError.  (When the key
is present on this side but its value is missing on the other, CPython
would leave this side already mutated; that state is unreachable from the
public operations, and the model returns the unmutated state.) -/
def delitem (this other : List (α × α)) (key : α) :
    Except Unit (List (α × α) × List (α × α)) :=
  match dlookup this key with
  | none => .error ()
  | some value =>
    match dlookup other value with
    | none => .error ()
    | some _ => .ok (dremove this key, dremove other value)

/-- `MutableMapping.update`: assign each item in order, propagating the
first conflict (used where the partially-built receiver is discarded). -/
def updateItems (this other : List (α × α)) :
    List (α × α) → Except (BijectionKeyConflict α) (List (α × α) × List (α × α))
  | [] => .ok (this, other)
  | (k, v) :: rest =>
    match setitem this other k v with
    | .error e => .error e
    | .ok (t, o) => updateItems t o rest

/-- `MutableMapping.update` keeping the partial state when a conflict is
raised midway (used by `Bijection._update`, whose receiver is mutated in
place and not rolled back). -/
def updateItemsTrack (this other : List (α × α)) :
    List (α × α) → (List (α × α) × List (α × α)) × Option (BijectionKeyConflict α)
  | [] => ((this, other), none)
  | (k, v) :: rest =>
    match setitem this other k v with
    | .error e => ((this, other), some e)
    | .ok (t, o) => updateItemsTrack t o rest

/-- The eviction loop of `Bijection._update`: `del self_map[key]` for every
key of the incoming map, ignoring KeyError. -/
def evictKeys (this other : List (α × α)) : List α → List (α × α) × List (α × α)
  | [] => (this, other)
  | k :: rest =>
    match delitem this other k with
    | .error _ => evictKeys this other rest
    | .ok (t, o) => evictKeys t o rest

/-- Bijection: two paired dicts, `ltr` from left keys to right keys and
`rtl` from right keys to left keys. -/
structure Bijection (α : Type) where
  ltr : List (α × α)
  rtl : List (α × α)
deriving DecidableEq, Repr

/-- `Bijection()` with no pairs. -/
def Bijection.empty : Bijection α := ⟨[], []⟩

/-- `Bijection(pairs)` / `Bijection.from_ltr(mapping)`: assign
`self.ltr[left] = right` for each pair in order (both the constructor loop
and `MutableMapping.update` call `__setitem__` per item). -/
def Bijection.ofPairs (pairs : List (α × α)) :
    Except (BijectionKeyConflict α) (Bijection α) :=
  match updateItems [] [] pairs with
  | .ok (t, o) => .ok ⟨t, o⟩
  | .error e => .error e

/-- `Bijection.from_rtl(mapping)`: `b.rtl.update(mapping)` on a fresh
bijection. -/
def Bijection.from_rtl (mapping : List (α × α)) :
    Except (BijectionKeyConflict α) (Bijection α) :=
  match updateItems [] [] mapping with
  | .ok (t, o) => .ok ⟨o, t⟩
  | .error e => .error e

/-- `Bijection.identity(keys)`: every key maps to itself. -/
def Bijection.identity (keys : List α) :
    Except (BijectionKeyConflict α) (Bijection α) :=
  Bijection.ofPairs (keys.map fun k => (k, k))

/-- `pair in bijection`. -/
def Bijection.contains (b : Bijection α) (pair : α × α) : Bool :=
  decide (dlookup b.ltr pair.1 = some pair.2)

/-- Direct assignment `b.ltr[key] = value`. -/
def Bijection.setLtr (b : Bijection α) (key value : α) :
    Except (BijectionKeyConflict α) (Bijection α) :=
  match setitem b.ltr b.rtl key value with
  | .ok (t, o) => .ok ⟨t, o⟩
  | .error e => .error e

/-- Direct assignment `b.rtl[key] = value`. -/
def Bijection.setRtl (b : Bijection α) (key value : α) :
    Except (BijectionKeyConflict α) (Bijection α) :=
  match setitem b.rtl b.ltr key value with
  | .ok (t, o) => .ok ⟨o, t⟩
  | .error e => .error e

/-- `del b.ltr[key]`. -/
def Bijection.delLtr (b : Bijection α) (key : α) : Except Unit (Bijection α) :=
  match delitem b.ltr b.rtl key with
  | .ok (t, o) => .ok ⟨t, o⟩
  | .error e => .error e

/-- `del b.rtl[key]`. -/
def Bijection.delRtl (b : Bijection α) (key : α) : Except Unit (Bijection α) :=
  match delitem b.rtl b.ltr key with
  | .ok (t, o) => .ok ⟨o, t⟩
  | .error e => .error e

/-- `Bijection.add(pair)`: assign on the ltr view; convert a conflict to
absolute framing anchored at LEFT before re-raising (the literal
`KeyLoc.LEFT` anchor passes `_checkabs`, so only the core conversion
applies). -/
def Bijection.add (b : Bijection α) (pair : α × α) :
    Except (BijectionKeyConflict α) (Bijection α) :=
  match setitem b.ltr b.rtl pair.1 pair.2 with
  | .ok (t, o) => .ok ⟨t, o⟩
  | .error e => .error (e.toabsCore .LEFT)

/-- `Bijection.discard(pair)`: KeyError when the exact pair is not a
member, else delete via the ltr view. -/
def Bijection.discard (b : Bijection α) (pair : α × α) : Except Unit (Bijection α) :=
  if b.contains pair then
    match delitem b.ltr b.rtl pair.1 with
    | .ok (t, o) => .ok ⟨t, o⟩
    | .error e => .error e
  else .error ()

/-- `Bijection.update_left(other)`: evict every left key of `other` from
`self` (ignoring not-found), then insert all of `other`'s entries; a
conflict is converted to absolute framing anchored at LEFT, and the
partially-updated state is kept. -/
def Bijection.update_left (b other : Bijection α) :
    Bijection α × Option (BijectionKeyConflict α) :=
  let ev := evictKeys b.ltr b.rtl (dkeys other.ltr)
  let res := updateItemsTrack ev.1 ev.2 other.ltr
  (⟨res.1.1, res.1.2⟩, res.2.map fun e => e.toabsCore .LEFT)

/-- `Bijection.update_right(other)`: symmetric, on the rtl view, anchored
at RIGHT. -/
def Bijection.update_right (b other : Bijection α) :
    Bijection α × Option (BijectionKeyConflict α) :=
  let ev := evictKeys b.rtl b.ltr (dkeys other.rtl)
  let res := updateItemsTrack ev.1 ev.2 other.rtl
  (⟨res.1.2, res.1.1⟩, res.2.map fun e => e.toabsCore .RIGHT)

/-- First loop of `Bijection.conflicts`: left keys shared by both
bijections whose right values differ (membership in `other.left` and the
`other.ltr[left]` lookup are combined into one association-list lookup). -/
def conflictsLoop1 (otherLtr : List (α × α)) : List (α × α) → List (α × (α × α))
  | [] => []
  | (l, v1) :: rest =>
    match dlookup otherLtr l with
    | some v2 =>
      if v1 ≠ v2 then (l, (v1, v2)) :: conflictsLoop1 otherLtr rest
      else conflictsLoop1 otherLtr rest
    | none => conflictsLoop1 otherLtr rest

/-- Second loop of `Bijection.conflicts`, as written in the source: for
each shared right key it reads `other.ltr[right]` (not `other.rtl`), which
raises KeyError (modelled `.error ()`) when the right key is not among
`other`'s left keys. -/
def conflictsLoop2 (otherLtr otherRtl : List (α × α)) :
    List (α × α) → Except Unit (List (α × (α × α)))
  | [] => .ok []
  | (r, v1) :: rest =>
    if (dlookup otherRtl r).isSome then
      match dlookup otherLtr r with
      | none => .error ()
      | some v2 =>
        match conflictsLoop2 otherLtr otherRtl rest with
        | .error e => .error e
        | .ok acc => .ok (if v1 ≠ v2 then (r, (v1, v2)) :: acc else acc)
    else conflictsLoop2 otherLtr otherRtl rest

/-- `Bijection.conflicts(other)`: the ltr loop then the rtl loop (set
intersections are iterated through `self`'s insertion order; the returned
dict contents do not depend on that order). -/
def Bijection.conflicts (b other : Bijection α) :
    Except Unit (List (α × (α × α)) × List (α × (α × α))) :=
  match conflictsLoop2 other.ltr other.rtl b.rtl with
  | .error e => .error e
  | .ok rtlC => .ok (conflictsLoop1 other.ltr b.ltr, rtlC)

/-- The invariant maintained by a `BijectionMap` pair: both dicts have
unique keys, and every entry of each dict is inverted in the other. -/
def InvPair (this other : List (α × α)) : Prop :=
  (dkeys this).Nodup ∧ (dkeys other).Nodup ∧
  (∀ p ∈ this, dlookup other p.2 = some p.1) ∧
  (∀ p ∈ other, dlookup this p.2 = some p.1)

instance (t o : List (α × α)) : Decidable (InvPair t o) :=
  inferInstanceAs (Decidable ((dkeys t).Nodup ∧ (dkeys o).Nodup ∧
    (∀ p ∈ t, dlookup o p.2 = some p.1) ∧ (∀ p ∈ o, dlookup t p.2 = some p.1)))

/-- The bijection invariant: `ltr` and `rtl` are mutually inverse maps with
unique keys. -/
def Bijection.Wf (b : Bijection α) : Prop := InvPair b.ltr b.rtl

instance (b : Bijection α) : Decidable b.Wf :=
  inferInstanceAs (Decidable (InvPair b.ltr b.rtl))

/-- States reachable through the public Bijection operations: construction
from pairs or one-directional mappings, identity, `add`, `discard`, direct
ltr/rtl assignment and deletion, and the two merge operations (whose
post-state is reachable whether or not they raised). -/
inductive Reachable : Bijection α → Prop where
  | ofPairs (ps : List (α × α)) (b : Bijection α) :
      Bijection.ofPairs ps = .ok b → Reachable b
  | from_rtl (m : List (α × α)) (b : Bijection α) :
      Bijection.from_rtl m = .ok b → Reachable b
  | identity (ks : List α) (b : Bijection α) :
      Bijection.identity ks = .ok b → Reachable b
  | add (b : Bijection α) (p : α × α) (b' : Bijection α) :
      Reachable b → b.add p = .ok b' → Reachable b'
  | discard (b : Bijection α) (p : α × α) (b' : Bijection α) :
      Reachable b → b.discard p = .ok b' → Reachable b'
  | setLtr (b : Bijection α) (k v : α) (b' : Bijection α) :
      Reachable b → b.setLtr k v = .ok b' → Reachable b'
  | setRtl (b : Bijection α) (k v : α) (b' : Bijection α) :
      Reachable b → b.setRtl k v = .ok b' → Reachable b'
  | delLtr (b : Bijection α) (k : α) (b' : Bijection α) :
      Reachable b → b.delLtr k = .ok b' → Reachable b'
  | delRtl (b : Bijection α) (k : α) (b' : Bijection α) :
      Reachable b → b.delRtl k = .ok b' → Reachable b'
  | update_left (b c : Bijection α) :
      Reachable b → Reachable c → Reachable (b.update_left c).1
  | update_right (b c : Bijection α) :
      Reachable b → Reachable c → Reachable (b.update_right c).1

/-! ### The suffix sequence and `dedup_key` (`pptools/util/misc.py`) -/

/-- `string.ascii_lowercase`. -/
def alphabet : List Char := "abcdefghijklmnopqrstuvwxyz".toList

/-- `itertools.product(*([ascii_lowercase] * i))` as character lists, in
product order (first coordinate slowest). -/
def tuples : Nat → List (List Char)
  | 0 => [[]]
  | i + 1 => alphabet.bind fun c => (tuples i).map fun t => c :: t

/-- The block of strings of length `i` yielded by `iter_letters`. -/
def letterBlock (i : Nat) : List String := (tuples i).map fun t => ⟨t⟩

/-- Walk the concatenated blocks of `iter_letters` down to index `n`,
starting at block length `i`.  The fuel only bounds the recursion; since
every block is nonempty, `n + 1` steps always suffice (proved below). -/
def letterAtAux : Nat → Nat → Nat → String
  | 0, _, _ => ""
  | fuel + 1, i, n =>
    if h : n < (letterBlock i).length then (letterBlock i).get ⟨n, h⟩
    else letterAtAux fuel (i + 1) (n - (letterBlock i).length)

/-- The `n`-th string yielded by `iter_letters` (0-indexed): "a", "b", ...,
"z", "aa", "ab", ... -/
def letterAt (n : Nat) : String := letterAtAux (n + 1) 1 n

/-- The search loop of `dedup_key`, iterating over `iter_letters` with the
current suffix index `n`.  The fuel only bounds the recursion; the loop
provably returns within `existing.length + 2` iterations. -/
def dedupLoop (key : String) (existing : List String) (sep : String) :
    Nat → Nat → Option String
  | 0, _ => none
  | fuel + 1, n =>
    let suffix := letterAt n
    if suffix = "a" ∧ key ∈ existing then dedupLoop key existing sep fuel (n + 1)
    else
      let newkey := key ++ sep ++ suffix
      if newkey ∈ existing then dedupLoop key existing sep fuel (n + 1)
      else some newkey

/-- `dedup_key(key, existing, sep)`: append the first suffix from
`iter_letters` whose result is not in `existing`, skipping the "a"
candidate when the bare key is itself in `existing`. -/
def dedup_key (key : String) (existing : List String) (sep : String) : Option String :=
  dedupLoop key existing sep (existing.length + 2) 0

/-! ### Key normalization (`make_keymap` / `assign_reduced_keys`) -/

/-- `revmap.setdefault(newkey, []).append(key)` on an insertion-ordered
dict of lists. -/
def addToGroup : List (α × List α) → α → α → List (α × List α)
  | [], k, key => [(k, [key])]
  | (k', l) :: rest, k, key =>
    if k' = k then (k', l ++ [key]) :: rest else (k', l) :: addToGroup rest k key

/-- The grouping loop shared by `make_keymap` and `assign_reduced_keys`:
keys whose transformed value differs from the original, grouped by
transformed value in first-seen order. -/
def revmap (keys : List α) (f : α → α) : List (α × List α) :=
  keys.foldl
    (fun rm key =>
      let newkey := f key
      if newkey ≠ key then addToGroup rm newkey key else rm)
    []

/-- The partition loop over the groups: a singleton group whose new key
passes `accept` becomes an entry of the updates Bijection (via the raw
`updates.ltr[old] = new` assignment, which can raise); every other group
is recorded in the conflicts dict.  `make_keymap` accepts every new key;
`assign_reduced_keys` additionally requires the new key not to be a right
key of the pre-existing keymap. -/
def assignGroups (accept : α → Bool) :
    List (α × List α) → Bijection α → List (α × List α) →
      Except (BijectionKeyConflict α) (Bijection α × List (α × List α))
  | [], upd, confl => .ok (upd, confl)
  | (nk, olds) :: rest, upd, confl =>
    match olds, accept nk with
    | [o], true =>
      match upd.setLtr o nk with
      | .error e => .error e
      | .ok upd' => assignGroups accept rest upd' confl
    | _, _ => assignGroups accept rest upd (confl ++ [(nk, olds)])

/-- `make_keymap(keys, f)` from `pptools/bibliography.py`. -/
def make_keymap (keys : List α) (f : α → α) :
    Except (BijectionKeyConflict α) (Bijection α × List (α × List α)) :=
  assignGroups (fun _ => true) (revmap keys f) Bijection.empty []

/-- `reduce_key(key)` from `paperpile_tools/bibliography.py`:
`re.fullmatch(".*?-[A-Za-z]{2}$", key)` succeeds exactly when the key ends
in a hyphen followed by two ASCII letters and the preceding part contains
no newline (`.` does not match a newline); on a match the last three
characters are dropped. -/
def reduce_key (key : String) : String :=
  let n := key.length
  if 3 ≤ n ∧ key.data.getD (n - 3) ' ' = '-' ∧ (key.data.getD (n - 2) ' ').isAlpha ∧
      (key.data.getD (n - 1) ' ').isAlpha ∧ (key.data.take (n - 3)).all (· ≠ '\n')
  then ⟨key.data.take (n - 3)⟩
  else key

/-- `assign_reduced_keys(keys, keymap)` from
`paperpile_tools/bibliography.py`: keys already on the left side of the
existing keymap are skipped before the transform (the source tests
`key in keymap.left` inside the grouping loop, which filters the same
keys), and a reduced key already on the right side of the existing keymap
fails the acceptance test so its group always conflicts. -/
def assign_reduced_keys (keys : List String) (keymap : Bijection String) :
    Except (BijectionKeyConflict String) (Bijection String × List (String × List String)) :=
  let kept := keys.filter fun k => !(dlookup keymap.ltr k).isSome
  assignGroups (fun nk => !(dlookup keymap.rtl nk).isSome) (revmap kept reduce_key)
    Bijection.empty []

/-- Statement-level helper: the accepted assignments, in group order. -/
def singletonPairs (accept : α → Bool) : List (α × List α) → List (α × α)
  | [] => []
  | (nk, olds) :: rest =>
    match olds, accept nk with
    | [o], true => (o, nk) :: singletonPairs accept rest
    | _, _ => singletonPairs accept rest

/-- Statement-level helper: the groups sent to the conflicts dict, in
group order. -/
def conflictGroups (accept : α → Bool) : List (α × List α) → List (α × List α)
  | [] => []
  | (nk, olds) :: rest =>
    match olds, accept nk with
    | [_], true => conflictGroups accept rest
    | _, _ => (nk, olds) :: conflictGroups accept rest

/-! ### Association-list dict lemmas -/

theorem dlookup_append (d₁ d₂ : List (α × α)) (k : α) :
    dlookup (d₁ ++ d₂) k = (dlookup d₁ k).or (dlookup d₂ k) := by
  induction d₁ with
  | nil => simp [dlookup]
  | cons p rest ih =>
    obtain ⟨k', v⟩ := p
    by_cases h : k' = k <;> simp [dlookup, h, ih]

theorem dlookup_eq_none_iff (d : List (α × α)) (k : α) :
    dlookup d k = none ↔ k ∉ dkeys d := by
  induction d with
  | nil => simp [dlookup, dkeys]
  | cons p rest ih =>
    obtain ⟨k', v⟩ := p
    by_cases h : k' = k <;> simp [dlookup, dkeys, h] <;> simp [dkeys] at ih <;> tauto

theorem mem_dkeys_of_mem {d : List (α × α)} {p : α × α} (h : p ∈ d) : p.1 ∈ dkeys d :=
  List.mem_map_of_mem Prod.fst h

theorem dlookup_mem {d : List (α × α)} {k v : α} (h : dlookup d k = some v) : (k, v) ∈ d := by
  induction d with
  | nil => simp [dlookup] at h
  | cons p rest ih =>
    obtain ⟨k', v'⟩ := p
    by_cases hk : k' = k
    · simp [dlookup, hk] at h
      simp [hk, h]
    · simp [dlookup, hk] at h
      exact List.mem_cons_of_mem _ (ih h)

theorem mem_dlookup {d : List (α × α)} {k v : α} (hn : (dkeys d).Nodup) (h : (k, v) ∈ d) :
    dlookup d k = some v := by
  induction d with
  | nil => simp at h
  | cons p rest ih =>
    obtain ⟨k', v'⟩ := p
    simp [dkeys] at hn
    rcases List.mem_cons.mp h with heq | hmem
    · obtain ⟨h1, h2⟩ := Prod.mk.injEq .. ▸ heq
      simp [dlookup, h1.symm, h2]
    · by_cases hk : k' = k
      · exact absurd (hk ▸ mem_dkeys_of_mem hmem) (by simpa [dkeys] using hn.1)
      · simpa [dlookup, hk] using ih hn.2 hmem

theorem dremove_sublist (d : List (α × α)) (k : α) : List.Sublist (dremove d k) d := by
  induction d with
  | nil => simp [dremove]
  | cons p rest ih =>
    obtain ⟨k', v⟩ := p
    by_cases h : k' = k
    · simpa [dremove, h] using List.sublist_cons_self (k', v) rest
    · simpa [dremove, h] using List.Sublist.cons₂ (k', v) ih

theorem dkeys_dremove_nodup {d : List (α × α)} (k : α) (h : (dkeys d).Nodup) :
    (dkeys (dremove d k)).Nodup :=
  h.sublist ((dremove_sublist d k).map Prod.fst)

theorem dlookup_dremove : ∀ {d : List (α × α)}, (dkeys d).Nodup → ∀ (k k' : α),
    dlookup (dremove d k) k' = if k' = k then none else dlookup d k' := by
  intro d
  induction d with
  | nil =>
    intro _ k k'
    simp [dremove, dlookup]
  | cons p rest ih =>
    intro hn k k'
    obtain ⟨a, v⟩ := p
    obtain ⟨ha0, hn'⟩ := List.nodup_cons.mp hn
    have ha0' : a ∉ dkeys rest := ha0
    by_cases ha : a = k
    · rw [show dremove ((a, v) :: rest) k = rest by simp [dremove, ha]]
      by_cases hk : k' = k
      · rw [if_pos hk]
        apply (dlookup_eq_none_iff rest k').mpr
        rw [hk, ← ha]
        exact ha0'
      · rw [if_neg hk]
        have hak : ¬a = k' := fun h => hk (by rw [← h, ha])
        simp [dlookup, hak]
    · rw [show dremove ((a, v) :: rest) k = (a, v) :: dremove rest k by simp [dremove, ha]]
      by_cases hak : a = k'
      · have hk : ¬k' = k := fun h => ha (by rw [hak, h])
        simp [dlookup, hak, hk]
      · simp [dlookup, hak, ih hn' k k']

theorem nodup_append_single {l : List α} {a : α} (h : l.Nodup) (ha : a ∉ l) :
    (l ++ [a]).Nodup := by
  simp [List.nodup_append, h, ha]

/-! ### The one-to-one invariant: preservation lemmas -/

theorem InvPair.symm {t o : List (α × α)} (h : InvPair t o) : InvPair o t :=
  ⟨h.2.1, h.1, h.2.2.2, h.2.2.1⟩

theorem InvPair.lookup_iff {t o : List (α × α)} (h : InvPair t o) (k v : α) :
    dlookup t k = some v ↔ dlookup o v = some k := by
  constructor
  · intro hl
    exact h.2.2.1 (k, v) (dlookup_mem hl)
  · intro hl
    exact h.2.2.2 (v, k) (dlookup_mem hl)

theorem InvPair.nil : InvPair ([] : List (α × α)) [] := by
  refine ⟨List.nodup_nil, List.nodup_nil, ?_, ?_⟩ <;> simp

theorem setitem_ok_inv {t o t' o' : List (α × α)} {k v : α} (h : InvPair t o)
    (hs : setitem t o k v = .ok (t', o')) : InvPair t' o' := by
  unfold setitem at hs
  rcases hlt : dlookup t k with _ | v2
  · rcases hlo : dlookup o v with _ | k2
    · rw [hlt, hlo] at hs
      obtain ⟨ht, ho⟩ := Prod.mk.injEq .. ▸ (Except.ok.injEq .. ▸ hs)
      subst ht; subst ho
      have hkn : k ∉ dkeys t := (dlookup_eq_none_iff t k).mp hlt
      have hvn : v ∉ dkeys o := (dlookup_eq_none_iff o v).mp hlo
      refine ⟨?_, ?_, ?_, ?_⟩
      · simpa [dkeys] using nodup_append_single h.1 hkn
      · simpa [dkeys] using nodup_append_single h.2.1 hvn
      · intro p hp
        rcases List.mem_append.mp hp with hp | hp
        · rw [dlookup_append, h.2.2.1 p hp]
          rfl
        · simp at hp
          subst hp
          simp [dlookup_append, hlo, dlookup, Option.or]
      · intro p hp
        rcases List.mem_append.mp hp with hp | hp
        · rw [dlookup_append, h.2.2.2 p hp]
          rfl
        · simp at hp
          subst hp
          simp [dlookup_append, hlt, dlookup, Option.or]
    · rw [hlt, hlo] at hs
      by_cases hk : k2 = k
      · simp [hk] at hs
        obtain ⟨ht, ho⟩ := hs
        subst ht; subst ho
        exact h
      · simp [hk] at hs
  · rw [hlt] at hs
    by_cases hv : v2 = v
    · simp [hv] at hs
      obtain ⟨ht, ho⟩ := hs
      subst ht; subst ho
      exact h
    · simp [hv] at hs

theorem dremove_pair_lookup {t o : List (α × α)} {k val : α} (h : InvPair t o)
    (hk : dlookup t k = some val) :
    ∀ p ∈ dremove t k, dlookup (dremove o val) p.2 = some p.1 := by
  intro p hp
  have hpt : p ∈ t := (dremove_sublist t k).subset hp
  have hlo : dlookup o p.2 = some p.1 := h.2.2.1 p hpt
  have hne : p.2 ≠ val := by
    intro hpv
    have hok : dlookup o val = some k := (h.lookup_iff k val).mp hk
    have hp1 : p.1 = k := by
      have := hpv ▸ hlo
      rw [hok] at this
      exact (Option.some.injEq .. ▸ this).symm
    have hmem : dlookup (dremove t k) p.1 = some p.2 :=
      mem_dlookup (dkeys_dremove_nodup k h.1) hp
    rw [hp1, dlookup_dremove h.1 k k] at hmem
    simp at hmem
  rw [dlookup_dremove h.2.1 val p.2, if_neg hne]
  exact hlo

theorem delitem_ok_inv {t o t' o' : List (α × α)} {k : α} (h : InvPair t o)
    (hd : delitem t o k = .ok (t', o')) : InvPair t' o' := by
  unfold delitem at hd
  split at hd
  · exact absurd hd (by simp)
  next val hlt =>
    split at hd
    · exact absurd hd (by simp)
    next k2 hlo =>
      obtain ⟨ht, ho⟩ := Prod.mk.injEq .. ▸ (Except.ok.injEq .. ▸ hd)
      subst ht; subst ho
      have hok : dlookup o val = some k := (h.lookup_iff k val).mp hlt
      refine ⟨dkeys_dremove_nodup k h.1, dkeys_dremove_nodup val h.2.1, ?_, ?_⟩
      · exact dremove_pair_lookup h hlt
      · exact dremove_pair_lookup h.symm hok

theorem updateItems_ok_inv {items : List (α × α)} :
    ∀ {t o t' o' : List (α × α)}, InvPair t o →
      updateItems t o items = .ok (t', o') → InvPair t' o' := by
  induction items with
  | nil =>
    intro t o t' o' h hu
    simp only [updateItems] at hu
    obtain ⟨ht, ho⟩ := Prod.mk.injEq .. ▸ (Except.ok.injEq .. ▸ hu)
    subst ht; subst ho
    exact h
  | cons p rest ih =>
    intro t o t' o' h hu
    obtain ⟨k, v⟩ := p
    simp only [updateItems] at hu
    rcases hs : setitem t o k v with e | ⟨t1, o1⟩
    · rw [hs] at hu
      simp at hu
    · rw [hs] at hu
      exact ih (setitem_ok_inv h hs) hu

theorem updateItemsTrack_inv {items : List (α × α)} :
    ∀ {t o : List (α × α)}, InvPair t o →
      InvPair (updateItemsTrack t o items).1.1 (updateItemsTrack t o items).1.2 := by
  induction items with
  | nil =>
    intro t o h
    simpa [updateItemsTrack] using h
  | cons p rest ih =>
    intro t o h
    obtain ⟨k, v⟩ := p
    simp only [updateItemsTrack]
    rcases hs : setitem t o k v with e | ⟨t1, o1⟩
    · simpa using h
    · simpa using ih (setitem_ok_inv h hs)

theorem evictKeys_inv {ks : List α} :
    ∀ {t o : List (α × α)}, InvPair t o →
      InvPair (evictKeys t o ks).1 (evictKeys t o ks).2 := by
  induction ks with
  | nil =>
    intro t o h
    simpa [evictKeys] using h
  | cons k rest ih =>
    intro t o h
    simp only [evictKeys]
    rcases hd : delitem t o k with e | ⟨t1, o1⟩
    · exact ih h
    · exact ih (delitem_ok_inv h hd)

theorem Bijection.ofPairs_wf {ps : List (α × α)} {b : Bijection α}
    (h : Bijection.ofPairs ps = .ok b) : b.Wf := by
  unfold Bijection.ofPairs at h
  split at h
  next t o hu =>
    cases h
    exact updateItems_ok_inv InvPair.nil hu
  next e hu => simp at h

theorem Bijection.from_rtl_wf {m : List (α × α)} {b : Bijection α}
    (h : Bijection.from_rtl m = .ok b) : b.Wf := by
  unfold Bijection.from_rtl at h
  split at h
  next t o hu =>
    cases h
    exact (updateItems_ok_inv InvPair.nil hu).symm
  next e hu => simp at h

theorem Bijection.identity_wf {ks : List α} {b : Bijection α}
    (h : Bijection.identity ks = .ok b) : b.Wf :=
  Bijection.ofPairs_wf h

theorem Bijection.setLtr_wf {b b' : Bijection α} {k v : α} (hwf : b.Wf)
    (h : b.setLtr k v = .ok b') : b'.Wf := by
  unfold Bijection.setLtr at h
  split at h
  next t o hs =>
    cases h
    exact setitem_ok_inv hwf hs
  next e hs => simp at h

theorem Bijection.setRtl_wf {b b' : Bijection α} {k v : α} (hwf : b.Wf)
    (h : b.setRtl k v = .ok b') : b'.Wf := by
  unfold Bijection.setRtl at h
  split at h
  next t o hs =>
    cases h
    exact (setitem_ok_inv hwf.symm hs).symm
  next e hs => simp at h

theorem Bijection.delLtr_wf {b b' : Bijection α} {k : α} (hwf : b.Wf)
    (h : b.delLtr k = .ok b') : b'.Wf := by
  unfold Bijection.delLtr at h
  split at h
  next t o hd =>
    cases h
    exact delitem_ok_inv hwf hd
  next e hd => simp at h

theorem Bijection.delRtl_wf {b b' : Bijection α} {k : α} (hwf : b.Wf)
    (h : b.delRtl k = .ok b') : b'.Wf := by
  unfold Bijection.delRtl at h
  split at h
  next t o hd =>
    cases h
    exact (delitem_ok_inv hwf.symm hd).symm
  next e hd => simp at h

theorem Bijection.add_wf {b b' : Bijection α} {p : α × α} (hwf : b.Wf)
    (h : b.add p = .ok b') : b'.Wf := by
  unfold Bijection.add at h
  split at h
  next t o hs =>
    cases h
    exact setitem_ok_inv hwf hs
  next e hs => simp at h

theorem Bijection.discard_wf {b b' : Bijection α} {p : α × α} (hwf : b.Wf)
    (h : b.discard p = .ok b') : b'.Wf := by
  unfold Bijection.discard at h
  split at h
  · split at h
    next t o hd =>
      cases h
      exact delitem_ok_inv hwf hd
    next e hd => simp at h
  · simp at h

theorem Bijection.update_left_wf {b : Bijection α} (c : Bijection α) (hwf : b.Wf) :
    (b.update_left c).1.Wf :=
  updateItemsTrack_inv (evictKeys_inv hwf)

theorem Bijection.update_right_wf {b : Bijection α} (c : Bijection α) (hwf : b.Wf) :
    (b.update_right c).1.Wf :=
  (updateItemsTrack_inv (evictKeys_inv hwf.symm)).symm

/-- Every reachable bijection satisfies the one-to-one invariant. -/
theorem Reachable.wf {b : Bijection α} (h : Reachable b) : b.Wf := by
  induction h with
  | ofPairs ps b h => exact Bijection.ofPairs_wf h
  | from_rtl m b h => exact Bijection.from_rtl_wf h
  | identity ks b h => exact Bijection.identity_wf h
  | add b p b' _ h ih => exact Bijection.add_wf ih h
  | discard b p b' _ h ih => exact Bijection.discard_wf ih h
  | setLtr b k v b' _ h ih => exact Bijection.setLtr_wf ih h
  | setRtl b k v b' _ h ih => exact Bijection.setRtl_wf ih h
  | delLtr b k b' _ h ih => exact Bijection.delLtr_wf ih h
  | delRtl b k b' _ h ih => exact Bijection.delRtl_wf ih h
  | update_left b c _ _ ihb ihc => exact Bijection.update_left_wf c ihb
  | update_right b c _ _ ihb ihc => exact Bijection.update_right_wf c ihb

/-! ### Merge and construction lemmas -/

theorem dlookup_append_some {t d2 : List (α × α)} {l x : α} (h : dlookup t l = some x) :
    dlookup (t ++ d2) l = some x := by
  rw [dlookup_append, h]
  rfl

theorem setitem_ok_mono {t o t1 o1 : List (α × α)} {k v : α}
    (hs : setitem t o k v = .ok (t1, o1)) {l x : α} (h : dlookup t l = some x) :
    dlookup t1 l = some x := by
  unfold setitem at hs
  split at hs
  · split at hs
    · cases hs
      exact h
    · simp at hs
  · split at hs
    · split at hs
      · cases hs
        exact h
      · simp at hs
    · cases hs
      exact dlookup_append_some h

theorem setitem_ok_shape {t o t1 o1 : List (α × α)} {k v : α}
    (hs : setitem t o k v = .ok (t1, o1)) :
    (t1 = t ∧ o1 = o) ∨ (dlookup t k = none ∧ dlookup o v = none ∧
      t1 = t ++ [(k, v)] ∧ o1 = o ++ [(v, k)]) := by
  unfold setitem at hs
  split at hs
  · split at hs
    · cases hs
      exact Or.inl ⟨rfl, rfl⟩
    · simp at hs
  next hk =>
    split at hs
    · split at hs
      · cases hs
        exact Or.inl ⟨rfl, rfl⟩
      · simp at hs
    next hv =>
      cases hs
      exact Or.inr ⟨hk, hv, rfl, rfl⟩

theorem setitem_error_from {t o : List (α × α)} {k v : α} {e : BijectionKeyConflict α}
    (hk : dlookup t k = none) (hs : setitem t o k v = .error e) :
    ∃ k2, k2 ≠ k ∧ dlookup o v = some k2 ∧ e = ⟨(k, v), .FROM, k2⟩ := by
  unfold setitem at hs
  split at hs
  next v2 hk2 =>
    rw [hk] at hk2
    exact Option.noConfusion hk2
  next =>
    split at hs
    next k2 hv =>
      split at hs
      · simp at hs
      next hne =>
        exact ⟨k2, hne, hv, (Except.error.inj hs).symm⟩
    · simp at hs

theorem updateItemsTrack_mono {items : List (α × α)} :
    ∀ {t o : List (α × α)} {l x : α}, dlookup t l = some x →
      dlookup (updateItemsTrack t o items).1.1 l = some x := by
  induction items with
  | nil =>
    intro t o l x h
    simpa [updateItemsTrack] using h
  | cons p rest ih =>
    intro t o l x h
    obtain ⟨k, v⟩ := p
    simp only [updateItemsTrack]
    rcases hs : setitem t o k v with e | ⟨t1, o1⟩
    · simpa using h
    · simpa using ih (setitem_ok_mono hs h)

theorem setitem_ok_bound {t o t1 o1 : List (α × α)} {k v : α} (hinv : InvPair t o)
    (hs : setitem t o k v = .ok (t1, o1)) : dlookup t1 k = some v := by
  unfold setitem at hs
  split at hs
  next v2 hk =>
    split at hs
    next hv =>
      cases hs
      rw [hk, hv]
    · simp at hs
  next hk =>
    split at hs
    next k2 hv =>
      split at hs
      next hkk =>
        cases hs
        have := (hinv.lookup_iff k v).mpr (hkk ▸ hv)
        rw [hk] at this
        exact Option.noConfusion this
      · simp at hs
    · cases hs
      rw [dlookup_append, hk]
      simp [dlookup, Option.or]

theorem updateItemsTrack_none_bound {items : List (α × α)} :
    ∀ {t o : List (α × α)}, InvPair t o → (updateItemsTrack t o items).2 = none →
      ∀ p ∈ items, dlookup (updateItemsTrack t o items).1.1 p.1 = some p.2 := by
  induction items with
  | nil =>
    intro t o _ _ p hp
    simp at hp
  | cons q rest ih =>
    intro t o hinv hnone p hp
    obtain ⟨k, v⟩ := q
    simp only [updateItemsTrack] at hnone ⊢
    rcases hs : setitem t o k v with e | ⟨t1, o1⟩
    · rw [hs] at hnone
      simp at hnone
    · rw [hs] at hnone
      have hinv1 := setitem_ok_inv hinv hs
      rcases List.mem_cons.mp hp with heq | hmem
      · subst heq
        exact updateItemsTrack_mono (setitem_ok_bound hinv hs)
      · exact ih hinv1 hnone p hmem

theorem updateItemsTrack_preserve {items : List (α × α)} :
    ∀ {t o : List (α × α)} {l : α}, l ∉ dkeys items →
      dlookup (updateItemsTrack t o items).1.1 l = dlookup t l := by
  induction items with
  | nil =>
    intro t o l _
    simp [updateItemsTrack]
  | cons q rest ih =>
    intro t o l hl
    obtain ⟨k, v⟩ := q
    have hlk : l ≠ k := by
      intro h
      exact hl (h ▸ List.mem_cons_self _ _)
    have hlrest : l ∉ dkeys rest := fun h => hl (List.mem_cons_of_mem _ h)
    simp only [updateItemsTrack]
    rcases hs : setitem t o k v with e | ⟨t1, o1⟩
    · rfl
    · show dlookup (updateItemsTrack t1 o1 rest).1.1 l = dlookup t l
      rcases setitem_ok_shape hs with ⟨ht, _⟩ | ⟨_, _, ht, _⟩
      · subst ht
        exact ih hlrest
      · subst ht
        rw [ih hlrest, dlookup_append]
        have h0 : dlookup [(k, v)] l = none := by
          have hkl : ¬k = l := fun h => hlk h.symm
          simp [dlookup, hkl]
        rw [h0]
        cases dlookup t l <;> rfl

theorem delitem_ok_shape {t o t' o' : List (α × α)} {k : α}
    (hd : delitem t o k = .ok (t', o')) :
    ∃ val, dlookup t k = some val ∧ t' = dremove t k ∧ o' = dremove o val := by
  unfold delitem at hd
  split at hd
  · simp at hd
  next val hk =>
    split at hd
    · simp at hd
    next =>
      obtain ⟨h1, h2⟩ := Prod.mk.injEq .. ▸ (Except.ok.inj hd)
      exact ⟨val, hk, h1.symm, h2.symm⟩

theorem delitem_error_inv {t o : List (α × α)} {k : α} (hinv : InvPair t o) {e : Unit}
    (hd : delitem t o k = .error e) : dlookup t k = none := by
  unfold delitem at hd
  split at hd
  next hk => exact hk
  next val hk =>
    split at hd
    next hv =>
      have hc := (hinv.lookup_iff k val).mp hk
      rw [hv] at hc
      exact Option.noConfusion hc
    · simp at hd

theorem evictKeys_sublist {ks : List α} :
    ∀ {t o : List (α × α)}, List.Sublist (evictKeys t o ks).1 t := by
  induction ks with
  | nil =>
    intro t o
    exact List.Sublist.refl t
  | cons k rest ih =>
    intro t o
    simp only [evictKeys]
    rcases hd : delitem t o k with e | ⟨t1, o1⟩
    · exact ih
    · obtain ⟨val, hk, ht, ho⟩ := delitem_ok_shape hd
      subst ht; subst ho
      exact ih.trans (dremove_sublist t k)

theorem dlookup_none_of_sublist {t1 t : List (α × α)} (hsub : List.Sublist t1 t) {k : α}
    (h : dlookup t k = none) : dlookup t1 k = none := by
  rw [dlookup_eq_none_iff] at h ⊢
  intro hk
  exact h ((hsub.map Prod.fst).subset hk)

theorem evictKeys_lookup_none {ks : List α} :
    ∀ {t o : List (α × α)}, InvPair t o → ∀ k ∈ ks, dlookup (evictKeys t o ks).1 k = none := by
  induction ks with
  | nil =>
    intro t o _ k hk
    simp at hk
  | cons k0 rest ih =>
    intro t o hinv k hk
    simp only [evictKeys]
    rcases hd : delitem t o k0 with e | ⟨t1, o1⟩
    · rcases List.mem_cons.mp hk with heq | hmem
      · subst heq
        exact dlookup_none_of_sublist evictKeys_sublist (delitem_error_inv hinv hd)
      · exact ih hinv k hmem
    · have hinv1 := delitem_ok_inv hinv hd
      rcases List.mem_cons.mp hk with heq | hmem
      · subst heq
        obtain ⟨val, hk0, ht, ho⟩ := delitem_ok_shape hd
        subst ht; subst ho
        apply dlookup_none_of_sublist evictKeys_sublist
        rw [dlookup_dremove hinv.1]
        simp
      · exact ih hinv1 k hmem

theorem evictKeys_preserve {ks : List α} :
    ∀ {t o : List (α × α)}, InvPair t o → ∀ l, l ∉ ks →
      dlookup (evictKeys t o ks).1 l = dlookup t l := by
  induction ks with
  | nil =>
    intro t o _ l _
    rfl
  | cons k0 rest ih =>
    intro t o hinv l hl
    have hlk : l ≠ k0 := fun h => hl (h ▸ List.mem_cons_self _ _)
    have hlr : l ∉ rest := fun h => hl (List.mem_cons_of_mem _ h)
    simp only [evictKeys]
    rcases hd : delitem t o k0 with e | ⟨t1, o1⟩
    · exact ih hinv l hlr
    · obtain ⟨val, hk0, ht, ho⟩ := delitem_ok_shape hd
      subst ht; subst ho
      rw [ih (delitem_ok_inv hinv hd) l hlr, dlookup_dremove hinv.1, if_neg hlk]

theorem updateItemsTrack_error_side {items : List (α × α)} :
    ∀ {t o : List (α × α)}, (∀ p ∈ items, dlookup t p.1 = none) → (dkeys items).Nodup →
      ∀ e, (updateItemsTrack t o items).2 = some e → e.side = .FROM := by
  induction items with
  | nil =>
    intro t o _ _ e h
    simp [updateItemsTrack] at h
  | cons q rest ih =>
    intro t o habs hnd e h
    obtain ⟨k, v⟩ := q
    have hk : dlookup t k = none := habs (k, v) (List.mem_cons_self _ _)
    simp only [updateItemsTrack] at h
    rcases hs : setitem t o k v with e0 | ⟨t1, o1⟩
    · rw [hs] at h
      simp at h
      obtain ⟨k2, hne, hv, he⟩ := setitem_error_from hk hs
      rw [← h, he]
    · rw [hs] at h
      apply ih ?_ (List.Nodup.of_cons hnd) e h
      intro q hq
      rcases setitem_ok_shape hs with ⟨ht, _⟩ | ⟨_, _, ht, _⟩
      · subst ht
        exact habs q (List.mem_cons_of_mem _ hq)
      · subst ht
        rw [dlookup_append, habs q (List.mem_cons_of_mem _ hq)]
        have hqk : ¬k = q.1 := by
          intro hkq
          apply (List.nodup_cons.mp hnd).1
          rw [hkq]
          exact @mem_dkeys_of_mem α _ rest q hq
        simp [dlookup, hqk, Option.or]

theorem toabsCore_left_of_from {e : BijectionKeyConflict α} (h : e.side = .FROM) :
    (e.toabsCore .LEFT).side = .LEFT := by
  obtain ⟨p, s, c⟩ := e
  cases h
  simp [BijectionKeyConflict.toabsCore, KeyLoc.toabsCore, KeyLoc.relative, KeyLoc.val,
    KeyLoc.ofNat?]

theorem updateItems_ok_mono {items : List (α × α)} :
    ∀ {t o t' o' : List (α × α)} {l x : α}, updateItems t o items = .ok (t', o') →
      dlookup t l = some x → dlookup t' l = some x := by
  induction items with
  | nil =>
    intro t o t' o' l x hu h
    simp only [updateItems] at hu
    obtain ⟨h1, _⟩ := Prod.mk.injEq .. ▸ (Except.ok.inj hu)
    exact h1 ▸ h
  | cons q rest ih =>
    intro t o t' o' l x hu h
    obtain ⟨k, v⟩ := q
    simp only [updateItems] at hu
    rcases hs : setitem t o k v with e0 | ⟨t1, o1⟩
    · rw [hs] at hu
      simp at hu
    · rw [hs] at hu
      exact ih hu (setitem_ok_mono hs h)

theorem updateItems_ok_bound {items : List (α × α)} :
    ∀ {t o t' o' : List (α × α)}, InvPair t o → updateItems t o items = .ok (t', o') →
      ∀ p ∈ items, dlookup t' p.1 = some p.2 := by
  induction items with
  | nil =>
    intro t o t' o' _ _ p hp
    simp at hp
  | cons q rest ih =>
    intro t o t' o' hinv hu p hp
    obtain ⟨k, v⟩ := q
    simp only [updateItems] at hu
    rcases hs : setitem t o k v with e0 | ⟨t1, o1⟩
    · rw [hs] at hu
      simp at hu
    · rw [hs] at hu
      rcases List.mem_cons.mp hp with heq | hmem
      · subst heq
        exact updateItems_ok_mono hu (setitem_ok_bound hinv hs)
      · exact ih (setitem_ok_inv hinv hs) hu p hmem

theorem updateItems_append {xs ys : List (α × α)} :
    ∀ {t o : List (α × α)}, updateItems t o (xs ++ ys) =
      match updateItems t o xs with
      | .ok (t1, o1) => updateItems t1 o1 ys
      | .error e => .error e := by
  induction xs with
  | nil =>
    intro t o
    rfl
  | cons q rest ih =>
    intro t o
    obtain ⟨k, v⟩ := q
    simp only [List.cons_append, updateItems]
    rcases hs : setitem t o k v with e0 | ⟨t1, o1⟩
    · rfl
    · exact ih

theorem ofPairs_ok_bound {ps : List (α × α)} {b : Bijection α}
    (h : Bijection.ofPairs ps = .ok b) : ∀ p ∈ ps, dlookup b.ltr p.1 = some p.2 := by
  unfold Bijection.ofPairs at h
  split at h
  next t o hu =>
    cases h
    exact updateItems_ok_bound InvPair.nil hu
  next e hu => simp at h

/-! ### Claim C7: KeyLoc conversions -/

/-- C7: `flip` is an involution on all four KeyLoc values; `toabs` and
`torel` are mutually inverse when round-tripped through the same absolute
anchor side; and calling either with a relative anchor side raises a
ValueError instead of returning a value. -/
theorem keyloc_flip_toabs_torel :
    (∀ x : KeyLoc, x.flip.flip = x) ∧
    (∀ v s : KeyLoc, s.relative = false → v.relative = false →
      (v.torel s).bind (fun w => w.toabs s) = .ok v) ∧
    (∀ v s : KeyLoc, s.relative = false → v.relative = true →
      (v.toabs s).bind (fun w => w.torel s) = .ok v) ∧
    (∀ v s : KeyLoc, s.relative = true →
      v.toabs s = .error () ∧ v.torel s = .error ()) := by
  decide

/-- Witness for C7: a concrete relative value round-tripped through the
RIGHT anchor. -/
theorem keyloc_flip_toabs_torel_witness :
    ((KeyLoc.FROM).toabs .RIGHT).bind (fun w => w.torel .RIGHT) = .ok KeyLoc.FROM :=
  keyloc_flip_toabs_torel.2.2.1 .FROM .RIGHT rfl rfl

/-! ### Claim C1: the one-to-one invariant on reachable bijections -/

/-- C1: for every Bijection reachable through the public operations,
`ltr[l] = r` iff `rtl[r] = l`; hence the round trip `rtl[ltr[l]] = l`
holds for every left key, no left key maps to two different right keys,
and no right key is mapped from two different left keys. -/
theorem reachable_bijection_invariant (b : Bijection α) (h : Reachable b) :
    (∀ l r, dlookup b.ltr l = some r ↔ dlookup b.rtl r = some l) ∧
    (∀ l r, dlookup b.ltr l = some r → dlookup b.rtl r = some l) ∧
    (∀ l l' r, dlookup b.ltr l = some r → dlookup b.ltr l' = some r → l = l') ∧
    (∀ r r' l, dlookup b.rtl r = some l → dlookup b.rtl r' = some l → r = r') := by
  have hwf := h.wf
  refine ⟨fun l r => hwf.lookup_iff l r, fun l r hl => (hwf.lookup_iff l r).mp hl, ?_, ?_⟩
  · intro l l' r h1 h2
    have e1 := (hwf.lookup_iff l r).mp h1
    have e2 := (hwf.lookup_iff l' r).mp h2
    rw [e1] at e2
    exact Option.some.inj e2
  · intro r r' l h1 h2
    have e1 := (hwf.lookup_iff l r).mpr h1
    have e2 := (hwf.lookup_iff l r').mpr h2
    rw [e1] at e2
    exact Option.some.inj e2

/-- Witness for C1 at a bijection constructed from one pair. -/
theorem reachable_bijection_invariant_witness :
    dlookup (Bijection.mk [((1 : Int), 10)] [(10, 1)]).rtl 10 = some 1 :=
  (reachable_bijection_invariant ⟨[((1 : Int), 10)], [(10, 1)]⟩
    (Reachable.ofPairs [(1, 10)] _ rfl)).2.1 1 10 rfl

/-! ### Claim C10: the silent FROM no-op branch is dead code -/

/-- C10: on every reachable bijection the condition guarding the silent
no-op branch of `BijectionMap.__setitem__` (assigned key absent from this
side while the opposite map already points back at it) can never hold, on
either view. -/
theorem setitem_silent_branch_unreachable (b : Bijection α) (h : Reachable b) :
    (∀ k v, ¬(dlookup b.ltr k = none ∧ dlookup b.rtl v = some k)) ∧
    (∀ k v, ¬(dlookup b.rtl k = none ∧ dlookup b.ltr v = some k)) := by
  have hwf := h.wf
  constructor
  · rintro k v ⟨h1, h2⟩
    have hc := (hwf.lookup_iff k v).mpr h2
    rw [h1] at hc
    exact Option.noConfusion hc
  · rintro k v ⟨h1, h2⟩
    have hc := (hwf.lookup_iff v k).mp h2
    rw [h1] at hc
    exact Option.noConfusion hc

/-- Witness for C10 at a bijection constructed from one pair. -/
theorem setitem_silent_branch_unreachable_witness :
    ¬(dlookup (Bijection.mk [((1 : Int), 10)] [(10, 1)]).ltr 1 = none ∧
      dlookup (Bijection.mk [((1 : Int), 10)] [(10, 1)]).rtl 10 = some 1) :=
  (setitem_silent_branch_unreachable ⟨[((1 : Int), 10)], [(10, 1)]⟩
    (Reachable.ofPairs [(1, 10)] _ rfl)).1 1 10

/-! ### Claim C2: conflict reporting of `add` -/

/-- C2 (amended): on a well-formed bijection, adding `(l, r)` when `l`
already maps to some `r2 ≠ r` raises the absolute RIGHT conflict carrying
`r2` (this check has precedence and the bijection is unchanged); when `l`
is not already a left key and `r` maps back to some `l2 ≠ l` it raises the
absolute LEFT conflict carrying `l2`; otherwise the pair is inserted (or
already present) and afterwards `ltr[l] = r`, `rtl[r] = l` and membership
holds. -/
theorem add_conflict_sides (b : Bijection α) (hwf : b.Wf) (l r : α) :
    (∀ r2, dlookup b.ltr l = some r2 → r2 ≠ r →
      b.add (l, r) = .error ⟨(l, r), .RIGHT, r2⟩) ∧
    (dlookup b.ltr l = none → ∀ l2, dlookup b.rtl r = some l2 → l2 ≠ l →
      b.add (l, r) = .error ⟨(l, r), .LEFT, l2⟩) ∧
    ((dlookup b.ltr l = none ∨ dlookup b.ltr l = some r) →
      (dlookup b.rtl r = none ∨ dlookup b.rtl r = some l) →
      ∃ b', b.add (l, r) = .ok b' ∧ dlookup b'.ltr l = some r ∧
        dlookup b'.rtl r = some l ∧ b'.contains (l, r) = true) := by
  refine ⟨?_, ?_, ?_⟩
  · intro r2 hlt hne
    have hs : setitem b.ltr b.rtl l r = .error ⟨(l, r), .TO, r2⟩ := by
      unfold setitem
      rw [hlt]
      simp [hne]
    unfold Bijection.add
    rw [hs]
    simp [BijectionKeyConflict.toabsCore, KeyLoc.toabsCore, KeyLoc.relative, KeyLoc.val,
      KeyLoc.ofNat?]
  · intro hnone l2 hrt hne
    have hs : setitem b.ltr b.rtl l r = .error ⟨(l, r), .FROM, l2⟩ := by
      unfold setitem
      rw [hnone, hrt]
      simp [hne]
    unfold Bijection.add
    rw [hs]
    simp [BijectionKeyConflict.toabsCore, KeyLoc.toabsCore, KeyLoc.relative, KeyLoc.val,
      KeyLoc.ofNat?]
  · intro h1 h2
    rcases h1 with hnone | hsome
    · rcases h2 with hrnone | hrsome
      · refine ⟨⟨b.ltr ++ [(l, r)], b.rtl ++ [(r, l)]⟩, ?_, ?_, ?_, ?_⟩
        · unfold Bijection.add setitem
          rw [hnone, hrnone]
        · simp [dlookup_append, hnone, dlookup, Option.or]
        · simp [dlookup_append, hrnone, dlookup, Option.or]
        · apply decide_eq_true
          simp [dlookup_append, hnone, dlookup, Option.or]
      · exact absurd ((hwf.lookup_iff l r).mpr hrsome) (by simp [hnone])
    · have hrt : dlookup b.rtl r = some l := (hwf.lookup_iff l r).mp hsome
      refine ⟨b, ?_, hsome, hrt, ?_⟩
      · have hs : setitem b.ltr b.rtl l r = .ok (b.ltr, b.rtl) := by
          unfold setitem
          rw [hsome]
          simp
        unfold Bijection.add
        rw [hs]
      · exact decide_eq_true hsome

/-- Witness for C2 at concrete inputs exercising all three branches. -/
theorem add_conflict_sides_witness :
    Bijection.add (⟨[((1 : Int), 10)], [(10, 1)]⟩ : Bijection Int) (1, 20) =
      .error ⟨(1, 20), .RIGHT, 10⟩ ∧
    Bijection.add (⟨[((1 : Int), 10)], [(10, 1)]⟩ : Bijection Int) (2, 10) =
      .error ⟨(2, 10), .LEFT, 1⟩ ∧
    ∃ b', Bijection.add (⟨[((1 : Int), 10)], [(10, 1)]⟩ : Bijection Int) (2, 20) = .ok b' ∧
      dlookup b'.ltr 2 = some 20 ∧ dlookup b'.rtl 20 = some 2 ∧
      b'.contains (2, 20) = true :=
  ⟨(add_conflict_sides ⟨[((1 : Int), 10)], [(10, 1)]⟩ (by decide) 1 20).1 10 rfl (by decide),
   (add_conflict_sides ⟨[((1 : Int), 10)], [(10, 1)]⟩ (by decide) 2 10).2.1 rfl 1 rfl (by decide),
   (add_conflict_sides ⟨[((1 : Int), 10)], [(10, 1)]⟩ (by decide) 2 20).2.2
     (Or.inl rfl) (Or.inl rfl)⟩

/-- C2 counterexample: on the bijection containing (1, 10) and (2, 20),
adding (1, 20) finds the right key 20 already mapped back to 2 ≠ 1, yet
the code raises the RIGHT-side conflict for the taken left key (the ltr
check has precedence), not the LEFT-side conflict the claim prescribes. -/
theorem add_conflict_counterexample :
    Bijection.Wf (⟨[(1, 10), (2, 20)], [(10, 1), (20, 2)]⟩ : Bijection Int) ∧
    dlookup (⟨[((1 : Int), 10), (2, 20)], [(10, 1), (20, 2)]⟩ : Bijection Int).rtl 20 =
      some 2 ∧
    ((2 : Int) ≠ 1) ∧
    Bijection.add (⟨[(1, 10), (2, 20)], [(10, 1), (20, 2)]⟩ : Bijection Int) (1, 20) =
      .error ⟨(1, 20), .RIGHT, 10⟩ ∧
    Bijection.add (⟨[(1, 10), (2, 20)], [(10, 1), (20, 2)]⟩ : Bijection Int) (1, 20) ≠
      .error ⟨(1, 20), .LEFT, 2⟩ := by
  decide

/-! ### Claim C3: `conflicts` on shared right keys -/

/-- C3 (evaluation of the code at the failing input): `conflicts` reads
`other.ltr[right]` in its right-side loop, so on the well-formed
bijections A = ⦃(1, 10)⦄ and B = ⦃(2, 10)⦄, which share the right key 10,
it raises KeyError instead of returning the right-side conflict map
sending 10 to (1, 2). -/
theorem conflicts_keyerror_on_shared_right :
    Bijection.Wf (⟨[((1 : Int), 10)], [(10, 1)]⟩ : Bijection Int) ∧
    Bijection.Wf (⟨[((2 : Int), 10)], [(10, 2)]⟩ : Bijection Int) ∧
    Bijection.conflicts (⟨[((1 : Int), 10)], [(10, 1)]⟩ : Bijection Int)
      ⟨[(2, 10)], [(10, 2)]⟩ = .error () := by
  decide

/-! ### Claim C4: `update_left` semantics -/

/-- C4: `update_left` first evicts every entry whose left key occurs in
the incoming bijection and then inserts the incoming entries: left keys
not named by `other` keep their old value, on success every incoming entry
is present afterwards, and when an insertion still conflicts the reported
conflict is framed on the absolute LEFT side while the evictions and
insertions already applied are kept.  The last two conjuncts show the
claim's concrete example (ltr `1 ↦ -1, 2 ↦ -2` updated with `1 ↦ -5`
succeeds leaving `1 ↦ -5, 2 ↦ -2`) and a failing merge whose partial
state survives together with its LEFT-framed conflict. -/
theorem update_left_spec (b c : Bijection α) (hb : b.Wf) (hc : c.Wf) :
    ((∀ l, l ∉ dkeys c.ltr → dlookup (b.update_left c).1.ltr l = dlookup b.ltr l) ∧
     ((b.update_left c).2 = none →
       ∀ p ∈ c.ltr, dlookup (b.update_left c).1.ltr p.1 = some p.2) ∧
     (∀ e, (b.update_left c).2 = some e → e.side = .LEFT)) ∧
    Bijection.update_left (⟨[(1, -1), (2, -2)], [(-1, 1), (-2, 2)]⟩ : Bijection Int)
        ⟨[(1, -5)], [(-5, 1)]⟩ =
      (⟨[(2, -2), (1, -5)], [(-2, 2), (-5, 1)]⟩, none) ∧
    Bijection.update_left (⟨[(1, 10), (2, 20)], [(10, 1), (20, 2)]⟩ : Bijection Int)
        ⟨[(1, 11), (3, 20)], [(11, 1), (20, 3)]⟩ =
      (⟨[(2, 20), (1, 11)], [(20, 2), (11, 1)]⟩, some ⟨(3, 20), .LEFT, 2⟩) := by
  refine ⟨⟨?_, ?_, ?_⟩, by decide, by decide⟩
  · intro l hl
    show dlookup (updateItemsTrack (evictKeys b.ltr b.rtl (dkeys c.ltr)).1
      (evictKeys b.ltr b.rtl (dkeys c.ltr)).2 c.ltr).1.1 l = dlookup b.ltr l
    rw [updateItemsTrack_preserve hl, evictKeys_preserve hb l hl]
  · intro hnone p hp
    have hnone' : Option.map (fun e => BijectionKeyConflict.toabsCore e .LEFT)
        (updateItemsTrack (evictKeys b.ltr b.rtl (dkeys c.ltr)).1
          (evictKeys b.ltr b.rtl (dkeys c.ltr)).2 c.ltr).2 = none := hnone
    have h2 : (updateItemsTrack (evictKeys b.ltr b.rtl (dkeys c.ltr)).1
        (evictKeys b.ltr b.rtl (dkeys c.ltr)).2 c.ltr).2 = none := by
      rcases hres : (updateItemsTrack (evictKeys b.ltr b.rtl (dkeys c.ltr)).1
          (evictKeys b.ltr b.rtl (dkeys c.ltr)).2 c.ltr).2 with _ | e0
      · rfl
      · rw [hres] at hnone'
        simp at hnone'
    exact updateItemsTrack_none_bound (evictKeys_inv hb) h2 p hp
  · intro e he
    have he' : Option.map (fun e => BijectionKeyConflict.toabsCore e .LEFT)
        (updateItemsTrack (evictKeys b.ltr b.rtl (dkeys c.ltr)).1
          (evictKeys b.ltr b.rtl (dkeys c.ltr)).2 c.ltr).2 = some e := he
    have hx : ∃ e0, (updateItemsTrack (evictKeys b.ltr b.rtl (dkeys c.ltr)).1
        (evictKeys b.ltr b.rtl (dkeys c.ltr)).2 c.ltr).2 = some e0 ∧
        e = e0.toabsCore .LEFT := by
      rcases hres : (updateItemsTrack (evictKeys b.ltr b.rtl (dkeys c.ltr)).1
          (evictKeys b.ltr b.rtl (dkeys c.ltr)).2 c.ltr).2 with _ | e0
      · rw [hres] at he'
        simp at he'
      · rw [hres] at he'
        simp only [Option.map_some'] at he'
        exact ⟨e0, rfl, (Option.some.inj he').symm⟩
    obtain ⟨e0, hres, hee⟩ := hx
    have habs : ∀ p ∈ c.ltr,
        dlookup (evictKeys b.ltr b.rtl (dkeys c.ltr)).1 p.1 = none :=
      fun p hp => evictKeys_lookup_none hb p.1 (mem_dkeys_of_mem hp)
    have hfrom := updateItemsTrack_error_side habs hc.1 e0 hres
    rw [hee]
    exact toabsCore_left_of_from hfrom

/-- Witness for C4: an untouched left key keeps its value across a merge
on concrete well-formed bijections. -/
theorem update_left_spec_witness :
    dlookup (Bijection.update_left
        (⟨[((1 : Int), 10), (2, 20)], [(10, 1), (20, 2)]⟩ : Bijection Int)
        ⟨[(1, 11), (3, 20)], [(11, 1), (20, 3)]⟩).1.ltr 2 =
      dlookup (⟨[((1 : Int), 10), (2, 20)], [(10, 1), (20, 2)]⟩ : Bijection Int).ltr 2 :=
  (update_left_spec (⟨[((1 : Int), 10), (2, 20)], [(10, 1), (20, 2)]⟩ : Bijection Int)
    ⟨[(1, 11), (3, 20)], [(11, 1), (20, 3)]⟩ (by decide) (by decide)).1.1 2 (by decide)

/-! ### Claim C8: duplicates during construction -/

/-- C8 counterexample: constructing a Bijection from a list containing
the same exact pair twice does not raise; the repeated pair is an
idempotent no-op and construction succeeds with a single entry. -/
theorem ofPairs_duplicate_pair_counterexample :
    Bijection.ofPairs [((1 : Int), 2), (1, 2)] = .ok ⟨[(1, 2)], [(2, 1)]⟩ := by
  decide

/-- C8 (amended): construction raises on conflicting pairs — two pairs
sharing a left key with different right values, or sharing a right value
with different left keys — but an exactly repeated pair is accepted as an
idempotent no-op: appending a pair already in the list leaves the
construction result unchanged. -/
theorem ofPairs_conflict_raises (ps : List (α × α)) :
    (∀ l r r', (l, r) ∈ ps → (l, r') ∈ ps → r ≠ r' →
      ∃ e, Bijection.ofPairs ps = .error e) ∧
    (∀ l l' r, (l, r) ∈ ps → (l', r) ∈ ps → l ≠ l' →
      ∃ e, Bijection.ofPairs ps = .error e) ∧
    (∀ b p, Bijection.ofPairs ps = .ok b → p ∈ ps →
      Bijection.ofPairs (ps ++ [p]) = .ok b) := by
  refine ⟨?_, ?_, ?_⟩
  · intro l r r' h1 h2 hne
    rcases hres : Bijection.ofPairs ps with e | b
    · exact ⟨e, rfl⟩
    · exfalso
      have e1 := ofPairs_ok_bound hres (l, r) h1
      have e2 := ofPairs_ok_bound hres (l, r') h2
      rw [e1] at e2
      exact hne (Option.some.inj e2)
  · intro l l' r h1 h2 hne
    rcases hres : Bijection.ofPairs ps with e | b
    · exact ⟨e, rfl⟩
    · exfalso
      have hwf := Bijection.ofPairs_wf hres
      have e1 := (hwf.lookup_iff l r).mp (ofPairs_ok_bound hres (l, r) h1)
      have e2 := (hwf.lookup_iff l' r).mp (ofPairs_ok_bound hres (l', r) h2)
      rw [e1] at e2
      exact hne (Option.some.inj e2)
  · intro b p hok hp
    obtain ⟨pk, pv⟩ := p
    have hb : dlookup b.ltr pk = some pv := ofPairs_ok_bound hok (pk, pv) hp
    unfold Bijection.ofPairs at hok ⊢
    split at hok
    next t o hu =>
      cases hok
      have hb' : dlookup t pk = some pv := hb
      have h1 : setitem t o pk pv = .ok (t, o) := by
        unfold setitem
        rw [hb']
        simp
      have h2 : updateItems ([] : List (α × α)) [] (ps ++ [(pk, pv)]) = .ok (t, o) := by
        rw [updateItems_append, hu]
        show updateItems t o [(pk, pv)] = .ok (t, o)
        simp only [updateItems, h1]
      rw [h2]
    next e hu => simp at hok

/-- Witness for C8: conflicting pairs sharing the left key 1 make the
construction raise. -/
theorem ofPairs_conflict_raises_witness :
    ∃ e, Bijection.ofPairs [((1 : Int), 2), (1, 3)] = .error e :=
  (ofPairs_conflict_raises [((1 : Int), 2), (1, 3)]).1 1 2 3 (by decide) (by decide)
    (by decide)

/-! ### Grouping lemmas for the key-normalization algorithm -/

theorem addToGroup_fst_of_mem {rm : List (α × List α)} {k key : α}
    (h : k ∈ rm.map Prod.fst) :
    (addToGroup rm k key).map Prod.fst = rm.map Prod.fst := by
  induction rm with
  | nil => simp at h
  | cons g rest ih =>
    obtain ⟨k', l⟩ := g
    by_cases hk : k' = k
    · simp [addToGroup, hk]
    · have : k ∈ rest.map Prod.fst := by
        rcases List.mem_cons.mp h with heq | hmem
        · exact absurd heq.symm hk
        · exact hmem
      simp [addToGroup, hk, ih this]

theorem addToGroup_fst_of_not_mem {rm : List (α × List α)} {k key : α}
    (h : k ∉ rm.map Prod.fst) :
    (addToGroup rm k key).map Prod.fst = rm.map Prod.fst ++ [k] := by
  induction rm with
  | nil => rfl
  | cons g rest ih =>
    obtain ⟨k', l⟩ := g
    have hk : k' ≠ k := fun hkk => h (by simp [hkk])
    have hrest : k ∉ rest.map Prod.fst := fun hm => h (by simp [hm])
    simp [addToGroup, hk, ih hrest]

theorem addToGroup_fst_nodup {rm : List (α × List α)} {k key : α}
    (h : (rm.map Prod.fst).Nodup) :
    ((addToGroup rm k key).map Prod.fst).Nodup := by
  by_cases hk : k ∈ rm.map Prod.fst
  · rw [addToGroup_fst_of_mem hk]
    exact h
  · rw [addToGroup_fst_of_not_mem hk]
    exact nodup_append_single h hk

theorem addToGroup_prop (Q : α → α → Prop) {rm : List (α × List α)} {k key : α}
    (hrm : ∀ g ∈ rm, ∀ o ∈ g.2, Q g.1 o) (hk : Q k key) :
    ∀ g ∈ addToGroup rm k key, ∀ o ∈ g.2, Q g.1 o := by
  induction rm with
  | nil =>
    intro g hg o ho
    simp [addToGroup] at hg
    subst hg
    simp at ho
    subst ho
    exact hk
  | cons g0 rest ih =>
    obtain ⟨k', l⟩ := g0
    intro g hg o ho
    by_cases hkk : k' = k
    · simp only [addToGroup, if_pos hkk] at hg
      rcases List.mem_cons.mp hg with heq | hmem
      · subst heq
        rcases List.mem_append.mp ho with hol | hor
        · exact hrm (k', l) (List.mem_cons_self _ _) o hol
        · simp at hor
          subst hor
          exact hkk ▸ hk
      · exact hrm g (List.mem_cons_of_mem _ hmem) o ho
    · simp only [addToGroup, if_neg hkk] at hg
      rcases List.mem_cons.mp hg with heq | hmem
      · subst heq
        exact hrm (k', l) (List.mem_cons_self _ _) o ho
      · exact ih (fun g' hg' => hrm g' (List.mem_cons_of_mem _ hg')) g hmem o ho

theorem addToGroup_nonempty {rm : List (α × List α)} {k key : α}
    (h : ∀ g ∈ rm, g.2 ≠ []) :
    ∀ g ∈ addToGroup rm k key, g.2 ≠ [] := by
  induction rm with
  | nil =>
    intro g hg
    simp [addToGroup] at hg
    subst hg
    simp
  | cons g0 rest ih =>
    obtain ⟨k', l⟩ := g0
    intro g hg
    by_cases hkk : k' = k
    · simp only [addToGroup, if_pos hkk] at hg
      rcases List.mem_cons.mp hg with heq | hmem
      · subst heq
        simp
      · exact h g (List.mem_cons_of_mem _ hmem)
    · simp only [addToGroup, if_neg hkk] at hg
      rcases List.mem_cons.mp hg with heq | hmem
      · subst heq
        exact h (k', l) (List.mem_cons_self _ _)
      · exact ih (fun g' hg' => h g' (List.mem_cons_of_mem _ hg')) g hmem

theorem addToGroup_preserves_mem {rm : List (α × List α)} {k key nk x : α}
    (h : ∃ g ∈ rm, g.1 = nk ∧ x ∈ g.2) :
    ∃ g ∈ addToGroup rm k key, g.1 = nk ∧ x ∈ g.2 := by
  induction rm with
  | nil =>
    obtain ⟨g, hg, _⟩ := h
    simp at hg
  | cons g0 rest ih =>
    obtain ⟨k', l⟩ := g0
    obtain ⟨g, hg, h1, h2⟩ := h
    by_cases hkk : k' = k
    · simp only [addToGroup, if_pos hkk]
      rcases List.mem_cons.mp hg with heq | hmem
      · subst heq
        exact ⟨(k', l ++ [key]), List.mem_cons_self _ _, h1, List.mem_append_left _ h2⟩
      · exact ⟨g, List.mem_cons_of_mem _ hmem, h1, h2⟩
    · simp only [addToGroup, if_neg hkk]
      rcases List.mem_cons.mp hg with heq | hmem
      · subst heq
        exact ⟨(k', l), List.mem_cons_self _ _, h1, h2⟩
      · obtain ⟨g', hg', hp⟩ := ih ⟨g, hmem, h1, h2⟩
        exact ⟨g', List.mem_cons_of_mem _ hg', hp⟩

theorem addToGroup_self_mem (rm : List (α × List α)) (k key : α) :
    ∃ g ∈ addToGroup rm k key, g.1 = k ∧ key ∈ g.2 := by
  induction rm with
  | nil =>
    refine ⟨(k, [key]), ?_, rfl, ?_⟩
    · simp [addToGroup]
    · simp
  | cons g0 rest ih =>
    obtain ⟨k', l⟩ := g0
    by_cases hkk : k' = k
    · simp only [addToGroup, if_pos hkk]
      exact ⟨(k', l ++ [key]), List.mem_cons_self _ _, hkk, List.mem_append_right _ (by simp)⟩
    · simp only [addToGroup, if_neg hkk]
      obtain ⟨g', hg', hp⟩ := ih
      exact ⟨g', List.mem_cons_of_mem _ hg', hp⟩

theorem revmap_inv (keys : List α) (f : α → α) :
    ((revmap keys f).map Prod.fst).Nodup ∧
    (∀ g ∈ revmap keys f, ∀ o ∈ g.2, f o = g.1 ∧ g.1 ≠ o) ∧
    (∀ g ∈ revmap keys f, g.2 ≠ []) := by
  have main : ∀ (ks : List α) (rm : List (α × List α)),
      (rm.map Prod.fst).Nodup → (∀ g ∈ rm, ∀ o ∈ g.2, f o = g.1 ∧ g.1 ≠ o) →
      (∀ g ∈ rm, g.2 ≠ []) →
      ((List.foldl
          (fun rm key => if f key ≠ key then addToGroup rm (f key) key else rm) rm
          ks).map Prod.fst).Nodup ∧
      (∀ g ∈ List.foldl
          (fun rm key => if f key ≠ key then addToGroup rm (f key) key else rm) rm ks,
        ∀ o ∈ g.2, f o = g.1 ∧ g.1 ≠ o) ∧
      (∀ g ∈ List.foldl
          (fun rm key => if f key ≠ key then addToGroup rm (f key) key else rm) rm ks,
        g.2 ≠ []) := by
    intro ks
    induction ks with
    | nil =>
      intro rm h1 h2 h3
      exact ⟨h1, h2, h3⟩
    | cons key rest ih =>
      intro rm h1 h2 h3
      simp only [List.foldl_cons]
      by_cases hk : f key ≠ key
      · rw [if_pos hk]
        exact ih (addToGroup rm (f key) key)
          (addToGroup_fst_nodup h1)
          (addToGroup_prop (fun a o => f o = a ∧ a ≠ o) h2 ⟨rfl, hk⟩)
          (addToGroup_nonempty h3)
      · rw [if_neg hk]
        exact ih rm h1 h2 h3
  exact main keys [] (by simp) (by simp) (by simp)

theorem revmap_complete (keys : List α) (f : α → α) :
    ∀ k ∈ keys, f k ≠ k → ∃ g ∈ revmap keys f, g.1 = f k ∧ k ∈ g.2 := by
  have main : ∀ (ks : List α) (rm : List (α × List α)) (k : α),
      ((∃ g ∈ rm, g.1 = f k ∧ k ∈ g.2) ∨ (k ∈ ks ∧ f k ≠ k)) →
      ∃ g ∈ List.foldl
          (fun rm key => if f key ≠ key then addToGroup rm (f key) key else rm) rm ks,
        g.1 = f k ∧ k ∈ g.2 := by
    intro ks
    induction ks with
    | nil =>
      intro rm k h
      rcases h with h | ⟨h, _⟩
      · exact h
      · simp at h
    | cons key rest ih =>
      intro rm k h
      simp only [List.foldl_cons]
      rcases h with h | ⟨hmem, hne⟩
      · by_cases hk : f key ≠ key
        · rw [if_pos hk]
          exact ih _ k (Or.inl (addToGroup_preserves_mem h))
        · rw [if_neg hk]
          exact ih _ k (Or.inl h)
      · rcases List.mem_cons.mp hmem with heq | hrest
        · subst heq
          rw [if_pos hne]
          exact ih _ k (Or.inl (addToGroup_self_mem rm (f k) k))
        · by_cases hk : f key ≠ key
          · rw [if_pos hk]
            exact ih _ k (Or.inr ⟨hrest, hne⟩)
          · rw [if_neg hk]
            exact ih _ k (Or.inr ⟨hrest, hne⟩)
  intro k hk hne
  exact main keys [] k (Or.inr ⟨hk, hne⟩)

theorem revmap_pairwise (keys : List α) (f : α → α) :
    List.Pairwise (fun g1 g2 : α × List α => ∀ o ∈ g1.2, o ∉ g2.2) (revmap keys f) := by
  have h1 := (revmap_inv keys f).1
  have h2 := (revmap_inv keys f).2.1
  have hp : List.Pairwise (fun g1 g2 : α × List α => g1.1 ≠ g2.1) (revmap keys f) :=
    List.pairwise_map.mp h1
  refine hp.imp_of_mem ?_
  intro g1 g2 hg1 hg2 hne o ho1 ho2
  have q1 := (h2 g1 hg1 o ho1).1
  have q2 := (h2 g2 hg2 o ho2).1
  exact hne (by rw [← q1, ← q2])

theorem assignGroups_ok (accept : α → Bool) :
    ∀ (groups : List (α × List α)) (upd : Bijection α) (confl : List (α × List α)),
      (groups.map Prod.fst).Nodup →
      List.Pairwise (fun g1 g2 : α × List α => ∀ o ∈ g1.2, o ∉ g2.2) groups →
      (∀ g ∈ groups, ∀ o ∈ g.2, dlookup upd.ltr o = none) →
      (∀ g ∈ groups, dlookup upd.rtl g.1 = none) →
      assignGroups accept groups upd confl = .ok
        (⟨upd.ltr ++ singletonPairs accept groups,
          upd.rtl ++ (singletonPairs accept groups).map Prod.swap⟩,
         confl ++ conflictGroups accept groups) := by
  intro groups
  induction groups with
  | nil =>
    intro upd confl _ _ _ _
    simp [assignGroups, singletonPairs, conflictGroups]
  | cons g rest ih =>
    intro upd confl h1 h2 h3 h4
    obtain ⟨nk, olds⟩ := g
    have h1' : (rest.map Prod.fst).Nodup := (List.nodup_cons.mp h1).2
    have h2' := (List.pairwise_cons.mp h2).2
    have h2head := (List.pairwise_cons.mp h2).1
    have h3' : ∀ g ∈ rest, ∀ o ∈ g.2, dlookup upd.ltr o = none :=
      fun g hg => h3 g (List.mem_cons_of_mem _ hg)
    have h4' : ∀ g ∈ rest, dlookup upd.rtl g.1 = none :=
      fun g hg => h4 g (List.mem_cons_of_mem _ hg)
    rcases olds with _ | ⟨o, olds'⟩
    · simp only [assignGroups, singletonPairs, conflictGroups]
      rw [ih upd (confl ++ [(nk, [])]) h1' h2' h3' h4']
      simp
    · rcases olds' with _ | ⟨o2, olds''⟩
      · cases haccept : accept nk
        · simp only [assignGroups, singletonPairs, conflictGroups, haccept]
          rw [ih upd (confl ++ [(nk, [o])]) h1' h2' h3' h4']
          simp
        · have hol : dlookup upd.ltr o = none :=
            h3 (nk, [o]) (List.mem_cons_self _ _) o (by simp)
          have hor : dlookup upd.rtl nk = none := h4 (nk, [o]) (List.mem_cons_self _ _)
          have hset : Bijection.setLtr upd o nk =
              .ok ⟨upd.ltr ++ [(o, nk)], upd.rtl ++ [(nk, o)]⟩ := by
            unfold Bijection.setLtr setitem
            rw [hol, hor]
          simp only [assignGroups, singletonPairs, conflictGroups, haccept, hset]
          have h3'' : ∀ g ∈ rest, ∀ o' ∈ g.2,
              dlookup (upd.ltr ++ [(o, nk)]) o' = none := by
            intro g hg o' ho'
            have hne : o' ≠ o := by
              intro heq
              exact (h2head g hg o (by simp)) (heq ▸ ho')
            rw [dlookup_append, h3' g hg o' ho']
            have : ¬o = o' := fun h => hne h.symm
            simp [dlookup, this, Option.or]
          have h4'' : ∀ g ∈ rest, dlookup (upd.rtl ++ [(nk, o)]) g.1 = none := by
            intro g hg
            have hne : ¬nk = g.1 := by
              intro heq
              have hgm : g.1 ∈ rest.map Prod.fst := List.mem_map_of_mem Prod.fst hg
              exact (List.nodup_cons.mp h1).1 (heq ▸ hgm)
            rw [dlookup_append, h4' g hg]
            simp [dlookup, hne, Option.or]
          rw [ih ⟨upd.ltr ++ [(o, nk)], upd.rtl ++ [(nk, o)]⟩ confl h1' h2' h3'' h4'']
          simp
      · simp only [assignGroups, singletonPairs, conflictGroups]
        rw [ih upd (confl ++ [(nk, o :: o2 :: olds'')]) h1' h2' h3' h4']
        simp

/-! ### Claim C5: the key-normalization partition -/

/-- C5: the normalization algorithm groups exactly the keys whose
transform differs from the original (by transformed value, first-seen
order), accepts each singleton group into the updates Bijection, records
every other group in the conflicts dict, and never raises; when run
against a pre-existing keymap, keys already on its left side are skipped
before the transform and a transformed value already on its right side
forces its group into the conflicts dict even when it is a singleton. -/
theorem make_keymap_partition (keys : List α) (f : α → α) (skeys : List String)
    (keymap : Bijection String) :
    (make_keymap keys f = .ok
      (⟨singletonPairs (fun _ => true) (revmap keys f),
        (singletonPairs (fun _ => true) (revmap keys f)).map Prod.swap⟩,
       conflictGroups (fun _ => true) (revmap keys f))) ∧
    (∀ g ∈ revmap keys f, g.2 ≠ [] ∧ ∀ o ∈ g.2, f o = g.1 ∧ g.1 ≠ o) ∧
    (∀ k ∈ keys, f k ≠ k → ∃ g ∈ revmap keys f, g.1 = f k ∧ k ∈ g.2) ∧
    (assign_reduced_keys skeys keymap = .ok
      (⟨singletonPairs (fun nk => !(dlookup keymap.rtl nk).isSome)
          (revmap (skeys.filter fun k => !(dlookup keymap.ltr k).isSome) reduce_key),
        (singletonPairs (fun nk => !(dlookup keymap.rtl nk).isSome)
          (revmap (skeys.filter fun k => !(dlookup keymap.ltr k).isSome)
            reduce_key)).map Prod.swap⟩,
       conflictGroups (fun nk => !(dlookup keymap.rtl nk).isSome)
         (revmap (skeys.filter fun k => !(dlookup keymap.ltr k).isSome) reduce_key))) := by
  refine ⟨?_, ?_, revmap_complete keys f, ?_⟩
  · exact assignGroups_ok (fun _ => true) (revmap keys f) Bijection.empty []
      (revmap_inv keys f).1 (revmap_pairwise keys f)
      (fun g _ o _ => rfl) (fun g _ => rfl)
  · intro g hg
    exact ⟨(revmap_inv keys f).2.2 g hg, (revmap_inv keys f).2.1 g hg⟩
  · exact assignGroups_ok _ _ Bijection.empty []
      (revmap_inv _ reduce_key).1 (revmap_pairwise _ reduce_key)
      (fun g _ o _ => rfl) (fun g _ => rfl)

/-- Witness for C5: the group produced for the concrete key "abc-xy" is a
singleton with transform "abc", distinct from its original. -/
theorem make_keymap_partition_witness :
    ("abc", ["abc-xy"]).2 ≠ ([] : List String) ∧
    ∀ o ∈ ["abc-xy"], reduce_key o = "abc" ∧ "abc" ≠ o :=
  (make_keymap_partition ["abc-xy"] reduce_key [] ⟨[], []⟩).2.1 ("abc", ["abc-xy"])
    (by decide)

/-! ### Lemmas on the `iter_letters` sequence -/

theorem tuples_length {i : Nat} : ∀ t ∈ tuples i, t.length = i := by
  induction i with
  | zero =>
    intro t ht
    simp [tuples] at ht
    simp [ht]
  | succ j ih =>
    intro t ht
    simp only [tuples] at ht
    obtain ⟨c, hc, ht0⟩ := List.mem_bind.mp ht
    obtain ⟨t', ht', rfl⟩ := List.mem_map.mp ht0
    simp [ih t' ht']

theorem tuples_chars {i : Nat} : ∀ t ∈ tuples i, ∀ c ∈ t, c ∈ alphabet := by
  induction i with
  | zero =>
    intro t ht c hc
    simp [tuples] at ht
    subst ht
    simp at hc
  | succ j ih =>
    intro t ht c hc
    simp only [tuples] at ht
    obtain ⟨c0, hc0, ht0⟩ := List.mem_bind.mp ht
    obtain ⟨t', ht', rfl⟩ := List.mem_map.mp ht0
    rcases List.mem_cons.mp hc with rfl | hmem
    · exact hc0
    · exact ih t' ht' c hmem

theorem alphabet_nodup : alphabet.Nodup := by decide

theorem tuples_nodup (i : Nat) : (tuples i).Nodup := by
  induction i with
  | zero => simp [tuples]
  | succ j ih =>
    simp only [tuples]
    rw [List.nodup_bind]
    constructor
    · intro c _
      exact ih.map fun a b h => (List.cons.inj h).2
    · have hne : List.Pairwise (fun a b : Char => a ≠ b) alphabet := alphabet_nodup
      refine hne.imp ?_
      intro a b hab
      intro x hxa hxb
      obtain ⟨ta, _, rfl⟩ := List.mem_map.mp hxa
      obtain ⟨tb, _, heq⟩ := List.mem_map.mp hxb
      exact hab (List.cons.inj heq).1.symm

theorem tuples_exists_mem (i : Nat) : ∃ t, t ∈ tuples i := by
  induction i with
  | zero => exact ⟨[], by simp [tuples]⟩
  | succ j ih =>
    obtain ⟨t, ht⟩ := ih
    refine ⟨'a' :: t, ?_⟩
    simp only [tuples]
    exact List.mem_bind.mpr ⟨'a', by decide, List.mem_map.mpr ⟨t, ht, rfl⟩⟩

theorem letterBlock_mem_length {i : Nat} {s : String} (h : s ∈ letterBlock i) :
    s.length = i := by
  obtain ⟨t, ht, rfl⟩ := List.mem_map.mp h
  exact tuples_length t ht

theorem letterBlock_mem_chars {i : Nat} {s : String} (h : s ∈ letterBlock i) :
    ∀ c ∈ s.data, c ∈ alphabet := by
  obtain ⟨t, ht, rfl⟩ := List.mem_map.mp h
  exact tuples_chars t ht

theorem letterBlock_nodup (i : Nat) : (letterBlock i).Nodup :=
  (tuples_nodup i).map fun a b h => (congrArg String.data h : a = b)

theorem letterBlock_pos (i : Nat) : 0 < (letterBlock i).length := by
  obtain ⟨t, ht⟩ := tuples_exists_mem i
  have : (⟨t⟩ : String) ∈ letterBlock i := List.mem_map.mpr ⟨t, ht, rfl⟩
  exact List.length_pos.mpr (List.ne_nil_of_mem this)

theorem letterAtAux_mem : ∀ (fuel i n : Nat), n < fuel →
    ∃ j, i ≤ j ∧ letterAtAux fuel i n ∈ letterBlock j := by
  intro fuel
  induction fuel with
  | zero =>
    intro i n h
    exact absurd h (Nat.not_lt_zero n)
  | succ f ih =>
    intro i n h
    simp only [letterAtAux]
    split
    next hlt => exact ⟨i, Nat.le_refl i, List.get_mem _ _ _⟩
    next hge =>
      have hlen := letterBlock_pos i
      obtain ⟨j, hij, hmem⟩ := ih (i + 1) (n - (letterBlock i).length) (by omega)
      exact ⟨j, by omega, hmem⟩

theorem letterAtAux_inj : ∀ (fuel1 fuel2 i n1 n2 : Nat), n1 < fuel1 → n2 < fuel2 →
    letterAtAux fuel1 i n1 = letterAtAux fuel2 i n2 → n1 = n2 := by
  intro fuel1
  induction fuel1 with
  | zero =>
    intro fuel2 i n1 n2 h1
    exact absurd h1 (Nat.not_lt_zero _)
  | succ f1 ih =>
    intro fuel2 i n1 n2 h1 h2 heq
    cases fuel2 with
    | zero => exact absurd h2 (Nat.not_lt_zero _)
    | succ f2 =>
      simp only [letterAtAux] at heq
      by_cases ha : n1 < (letterBlock i).length <;>
        by_cases hb : n2 < (letterBlock i).length
      · rw [dif_pos ha, dif_pos hb] at heq
        have h3 := (List.Nodup.get_inj_iff (letterBlock_nodup i)).mp heq
        exact congrArg Fin.val h3
      · rw [dif_pos ha, dif_neg hb] at heq
        exfalso
        have hm1 : (letterBlock i).get ⟨n1, ha⟩ ∈ letterBlock i := List.get_mem _ _ _
        have l1 := letterBlock_mem_length hm1
        obtain ⟨j, hij, hmem⟩ :=
          letterAtAux_mem f2 (i + 1) (n2 - (letterBlock i).length) (by omega)
        have l2 := letterBlock_mem_length hmem
        rw [heq] at l1
        omega
      · rw [dif_neg ha, dif_pos hb] at heq
        exfalso
        have hm2 : (letterBlock i).get ⟨n2, hb⟩ ∈ letterBlock i := List.get_mem _ _ _
        have l2 := letterBlock_mem_length hm2
        obtain ⟨j, hij, hmem⟩ :=
          letterAtAux_mem f1 (i + 1) (n1 - (letterBlock i).length) (by omega)
        have l1 := letterBlock_mem_length hmem
        rw [heq] at l1
        omega
      · rw [dif_neg ha, dif_neg hb] at heq
        have hlen := letterBlock_pos i
        have := ih f2 (i + 1) (n1 - (letterBlock i).length)
          (n2 - (letterBlock i).length) (by omega) (by omega) heq
        omega

theorem letterAt_inj {m n : Nat} (h : letterAt m = letterAt n) : m = n :=
  letterAtAux_inj (m + 1) (n + 1) 1 m n (Nat.lt_succ_self m) (Nat.lt_succ_self n) h

theorem letterAt_mem (n : Nat) : ∃ j, 1 ≤ j ∧ letterAt n ∈ letterBlock j :=
  letterAtAux_mem (n + 1) 1 n (Nat.lt_succ_self n)

theorem letterAt_ne_empty (n : Nat) : letterAt n ≠ "" := by
  obtain ⟨j, hj, hmem⟩ := letterAt_mem n
  have hl := letterBlock_mem_length hmem
  intro h
  rw [h] at hl
  simp [String.length] at hl
  omega

theorem letterAt_chars (n : Nat) : ∀ c ∈ (letterAt n).data, c ∈ alphabet := by
  obtain ⟨j, hj, hmem⟩ := letterAt_mem n
  exact letterBlock_mem_chars hmem

theorem letterAt_zero : letterAt 0 = "a" := by decide

theorem letterAt_eq_a {n : Nat} (h : letterAt n = "a") : n = 0 :=
  letterAt_inj (h.trans letterAt_zero.symm)

/-! ### The `dedup_key` search -/

theorem dedupLoop_finds (key : String) (ex : List String) (sep : String) :
    ∀ (fuel n : Nat),
      (∃ m, n ≤ m ∧ m < n + fuel ∧ ¬(letterAt m = "a" ∧ key ∈ ex) ∧
        key ++ sep ++ letterAt m ∉ ex) →
      ∃ m, n ≤ m ∧ ¬(letterAt m = "a" ∧ key ∈ ex) ∧ key ++ sep ++ letterAt m ∉ ex ∧
        (∀ j, n ≤ j → j < m →
          (letterAt j = "a" ∧ key ∈ ex) ∨ key ++ sep ++ letterAt j ∈ ex) ∧
        dedupLoop key ex sep fuel n = some (key ++ sep ++ letterAt m) := by
  intro fuel
  induction fuel with
  | zero =>
    intro n h
    obtain ⟨m, h1, h2, _⟩ := h
    omega
  | succ f ih =>
    intro n hex
    by_cases hskip : letterAt n = "a" ∧ key ∈ ex
    · have hstep : dedupLoop key ex sep (f + 1) n = dedupLoop key ex sep f (n + 1) := by
        simp only [dedupLoop, if_pos hskip]
      obtain ⟨m0, hm0a, hm0b, hm0c, hm0d⟩ := hex
      have hm0n : m0 ≠ n := fun h => hm0c (h ▸ hskip)
      obtain ⟨m, hm1, hm2, hm3, hm4, hm5⟩ :=
        ih (n + 1) ⟨m0, by omega, by omega, hm0c, hm0d⟩
      refine ⟨m, by omega, hm2, hm3, ?_, hstep ▸ hm5⟩
      intro j hj1 hj2
      rcases Nat.eq_or_lt_of_le hj1 with rfl | hj
      · exact Or.inl hskip
      · exact hm4 j (by omega) hj2
    · by_cases hmem : key ++ sep ++ letterAt n ∈ ex
      · have hstep : dedupLoop key ex sep (f + 1) n = dedupLoop key ex sep f (n + 1) := by
          simp only [dedupLoop, if_neg hskip, if_pos hmem]
        obtain ⟨m0, hm0a, hm0b, hm0c, hm0d⟩ := hex
        have hm0n : m0 ≠ n := fun h => hm0d (h ▸ hmem)
        obtain ⟨m, hm1, hm2, hm3, hm4, hm5⟩ :=
          ih (n + 1) ⟨m0, by omega, by omega, hm0c, hm0d⟩
        refine ⟨m, by omega, hm2, hm3, ?_, hstep ▸ hm5⟩
        intro j hj1 hj2
        rcases Nat.eq_or_lt_of_le hj1 with rfl | hj
        · exact Or.inr hmem
        · exact hm4 j (by omega) hj2
      · refine ⟨n, Nat.le_refl n, hskip, hmem, ?_, ?_⟩
        · intro j hj1 hj2
          exact absurd (Nat.lt_of_le_of_lt hj1 hj2) (Nat.lt_irrefl n)
        · simp only [dedupLoop, if_neg hskip, if_neg hmem]

theorem dedup_exists (key : String) (ex : List String) (sep : String) :
    ∃ m, m < ex.length + 2 ∧ ¬(letterAt m = "a" ∧ key ∈ ex) ∧
      key ++ sep ++ letterAt m ∉ ex := by
  by_cases hall : ∀ m ∈ Finset.Icc 1 (ex.length + 1), key ++ sep ++ letterAt m ∈ ex
  · exfalso
    have hinj : Set.InjOn (fun m => key ++ sep ++ letterAt m)
        (Finset.Icc 1 (ex.length + 1)) := by
      intro a _ b _ h
      apply letterAt_inj
      apply String.ext
      have hd := congrArg String.data h
      simp only [String.data_append, List.append_assoc] at hd
      exact List.append_cancel_left (List.append_cancel_left hd)
    have hsub : (Finset.Icc 1 (ex.length + 1)).image (fun m => key ++ sep ++ letterAt m) ⊆
        ex.toFinset := by
      intro x hx
      obtain ⟨m, hm, rfl⟩ := Finset.mem_image.mp hx
      exact List.mem_toFinset.mpr (hall m hm)
    have h1 : ((Finset.Icc 1 (ex.length + 1)).image
        fun m => key ++ sep ++ letterAt m).card = ex.length + 1 := by
      rw [Finset.card_image_of_injOn hinj, Nat.card_Icc]
      omega
    have h2 := Finset.card_le_card hsub
    have h3 := ex.toFinset_card_le
    omega
  · push_neg at hall
    obtain ⟨m, hm, hnot⟩ := hall
    have hm' := Finset.mem_Icc.mp hm
    refine ⟨m, by omega, ?_, hnot⟩
    rintro ⟨ha, _⟩
    have := letterAt_eq_a ha
    omega

/-! ### Claim C6: the dedup suffix choice -/

/-- C6: `dedup_key` returns `key ++ sep ++ suffix` for the first suffix in
the `iter_letters` sequence whose concatenation is not in `existing`,
where the candidate "a" is additionally skipped whenever the bare key
itself is in `existing`; in particular `dedup_key "foo" {"foo", "fooa"}`
gives "foob" and `dedup_key "foo" {}` gives "fooa". -/
theorem dedup_key_first_free (key : String) (existing : List String) (sep : String) :
    (∃ n, dedup_key key existing sep = some (key ++ sep ++ letterAt n) ∧
      ¬(letterAt n = "a" ∧ key ∈ existing) ∧ key ++ sep ++ letterAt n ∉ existing ∧
      ∀ j < n, (letterAt j = "a" ∧ key ∈ existing) ∨
        key ++ sep ++ letterAt j ∈ existing) ∧
    dedup_key "foo" ["foo", "fooa"] "" = some "foob" ∧
    dedup_key "foo" [] "" = some "fooa" := by
  refine ⟨?_, by decide, by decide⟩
  obtain ⟨m0, hm0a, hm0b, hm0c⟩ := dedup_exists key existing sep
  obtain ⟨m, _, h1, h2, h3, h4⟩ := dedupLoop_finds key existing sep (existing.length + 2) 0
    ⟨m0, Nat.zero_le m0, by omega, hm0b, hm0c⟩
  exact ⟨m, h4, h1, h2, fun j hj => h3 j (Nat.zero_le j) hj⟩

/-! ### Claim C9: `dedup_key` terminates with a fresh extended key -/

/-- C9: for every key, finite existing collection and separator the search
loop terminates (within `existing.length + 2` candidates), and the result
is not in `existing` and strictly extends `key ++ sep` by a non-empty
all-lowercase-letter suffix. -/
theorem dedup_key_terminates_fresh (key : String) (existing : List String) (sep : String) :
    ∃ result suffix, dedup_key key existing sep = some result ∧ result ∉ existing ∧
      result = key ++ sep ++ suffix ∧ suffix ≠ "" ∧ ∀ c ∈ suffix.data, c ∈ alphabet := by
  obtain ⟨m0, hm0a, hm0b, hm0c⟩ := dedup_exists key existing sep
  obtain ⟨m, _, h1, h2, h3, h4⟩ := dedupLoop_finds key existing sep (existing.length + 2) 0
    ⟨m0, Nat.zero_le m0, by omega, hm0b, hm0c⟩
  exact ⟨key ++ sep ++ letterAt m, letterAt m, h4, h2, rfl, letterAt_ne_empty m,
    letterAt_chars m⟩

end Pptools
